import Mathlib

/-!
Verification of the sailfish LBM simulation engine (`sailfish/lbm.py`)
against its natural-language specification.

The Python source is shallowly embedded: option records mirror the
optparse defaults, the step engine and iteration schedulers become pure
functions over explicit state and event traces, machine floats are
modelled by `ℚ`, and the precision-widening text transform is modelled
as a scanner over `List Char` implementing the exact regular expression
of the source.
-/

set_option maxHeartbeats 1000000

namespace Sailfish

/-- The engine options relevant to the verified components, with the
optparse default values from `LBMSim.__init__`. -/
structure Options where
  quiet : Bool := false
  verbose : Bool := false
  precision : String := "single"
  lat_nx : Nat := 128
  lat_ny : Nat := 128
  lat_nz : Nat := 1
  visc : ℚ := 1/100
  every : Nat := 100
  benchmark : Bool := false
  max_iters : Nat := 0
  batch : Bool := false
  save_src : String := ""
  use_src : String := ""
  format_src : Bool := true
  output : String := ""
  deriving DecidableEq

/-- `LBMSim._is_double_precision`: `self.options.precision == 'double'`. -/
def _is_double_precision (opts : Options) : Bool :=
  opts.precision == "double"

/-- `LBMSim.get_tau`: `(6.0 * self.options.visc + 1.0) / 2.0`
(the cast through `self.float` is modelled by exact rationals). -/
def get_tau (opts : Options) : ℚ :=
  (6 * opts.visc + 1) / 2

/-- The workgroup-size adjustment in `LBMSim.__init__`:
`if lat_nx < 64: block_size = lat_nx else: block_size = 64`. -/
def block_size (lat_nx : Nat) : Nat :=
  if lat_nx < 64 then lat_nx else 64

/-- `LBMSim._kernel_block_size`: `(block_size, 1)` in 2D,
`(block_size, 1, 1)` in 3D. -/
def _kernel_block_size (dim bs : Nat) : List Nat :=
  if dim = 2 then [bs, 1] else [bs, 1, 1]

/-- The launch grid computed at the end of `_init_compute_kernels`:
2D: `(lat_nx/block_size, lat_ny)`;
3D: `(lat_nx/block_size * lat_ny, lat_nz)` (Python 2 integer division). -/
def kern_grid_size (dim nx ny nz bs : Nat) : List Nat :=
  if dim = 2 then [nx / bs, ny] else [nx / bs * ny, nz]

/-! ### Device buffers and per-parity kernel descriptors -/

/-- Device buffers allocated in `_init_compute_fields`. -/
inductive GpuBuf where
  | geo_map | dist1a | dist1b | rho | vx | vy | vz
  | tracer_x | tracer_y | tracer_z
  deriving DecidableEq, Repr

/-- A kernel argument: a device buffer reference or a `numpy.uint32`. -/
inductive GpuArg where
  | buf (b : GpuBuf)
  | uint (n : Nat)
  deriving DecidableEq, Repr

/-- `self.gpu_velocity`: `[vx, vy]`, plus `vz` in 3D. -/
def gpu_velocity (dim : Nat) : List GpuArg :=
  [.buf .vx, .buf .vy] ++ (if dim = 3 then [.buf .vz] else [])

/-- `self.gpu_tracer_loc`: `[tracer_x, tracer_y]`, plus `tracer_z` in 3D. -/
def gpu_tracer_loc (dim : Nat) : List GpuArg :=
  [.buf .tracer_x, .buf .tracer_y] ++ (if dim = 3 then [.buf .tracer_z] else [])

/-- A kernel handle as fetched by `backend.get_kernel`: its name and its
bound argument list. -/
structure Kernel where
  name : String
  args : List GpuArg
  deriving DecidableEq, Repr

/-- `args1` of `_init_compute_kernels`:
`[geo.gpu_map, gpu_dist1a, gpu_dist1b, gpu_rho] + gpu_velocity + [uint32(0)]`. -/
def args1 (dim : Nat) : List GpuArg :=
  [.buf .geo_map, .buf .dist1a, .buf .dist1b, .buf .rho] ++ gpu_velocity dim ++ [.uint 0]

/-- `args2`: as `args1` with the two distribution buffers swapped. -/
def args2 (dim : Nat) : List GpuArg :=
  [.buf .geo_map, .buf .dist1b, .buf .dist1a, .buf .rho] ++ gpu_velocity dim ++ [.uint 0]

/-- `args1v`: the data-saving variant of `args1` (`uint32(1)` flag). -/
def args1v (dim : Nat) : List GpuArg :=
  [.buf .geo_map, .buf .dist1a, .buf .dist1b, .buf .rho] ++ gpu_velocity dim ++ [.uint 1]

/-- `args2v`: the data-saving variant of `args2`. -/
def args2v (dim : Nat) : List GpuArg :=
  [.buf .geo_map, .buf .dist1b, .buf .dist1a, .buf .rho] ++ gpu_velocity dim ++ [.uint 1]

/-- `args_tracer1 = [gpu_dist1b, geo.gpu_map] + gpu_tracer_loc`. -/
def args_tracer1 (dim : Nat) : List GpuArg :=
  [.buf .dist1b, .buf .geo_map] ++ gpu_tracer_loc dim

/-- `args_tracer2 = [gpu_dist1a, geo.gpu_map] + gpu_tracer_loc`. -/
def args_tracer2 (dim : Nat) : List GpuArg :=
  [.buf .dist1a, .buf .geo_map] ++ gpu_tracer_loc dim

/-- One entry of `self.kern_map`: the plain collide-and-propagate kernel,
its data-saving variant, and the tracer-update kernel. -/
structure KernSet where
  cnp : Kernel
  cnps : Kernel
  tracer : Kernel
  deriving DecidableEq, Repr

/-- `self.kern_map`: iteration parity (`iter_ & 1`) to kernel set, as built
once by `LBMSim._init_compute_kernels`. -/
def kern_map (dim : Nat) (parity : Nat) : KernSet :=
  if parity = 0 then
    { cnp := ⟨"CollideAndPropagate", args1 dim⟩
      cnps := ⟨"CollideAndPropagate", args1v dim⟩
      tracer := ⟨"LBMUpdateTracerParticles", args_tracer1 dim⟩ }
  else
    { cnp := ⟨"CollideAndPropagate", args2 dim⟩
      cnps := ⟨"CollideAndPropagate", args2v dim⟩
      tracer := ⟨"LBMUpdateTracerParticles", args_tracer2 dim⟩ }

/-- The distribution buffer a collide-and-propagate kernel reads
(second argument in `args1`/`args2`). -/
def readDist (k : Kernel) : Option GpuArg := k.args[1]?

/-- The distribution buffer a collide-and-propagate kernel writes
(third argument in `args1`/`args2`). -/
def writeDist (k : Kernel) : Option GpuArg := k.args[2]?

/-! ### The step engine (`_lbm_step` / `sim_step`) -/

/-- Observable actions of one simulation step. -/
inductive SimEv where
  | runKernel (k : Kernel)
  | syncTracers
  | syncVelocity
  | syncDensity
  | outputData (i : Nat)
  deriving DecidableEq, Repr

/-- `LBMSim._lbm_step`: select the kernel set by iteration parity and
launch the kernels, with host synchronisation only on data steps. -/
def _lbm_step (dim iter : Nat) (get_data tracers : Bool) : List SimEv :=
  let kerns := kern_map dim (iter &&& 1)
  if get_data then
    [.runKernel kerns.cnps]
      ++ (if tracers then [.runKernel kerns.tracer, .syncTracers] else [])
      ++ [.syncVelocity, .syncDensity]
  else
    [.runKernel kerns.cnp]
      ++ (if tracers then [.runKernel kerns.tracer] else [])

/-- Result of one `sim_step` call. -/
structure StepResult where
  iter' : Nat
  extracted : Bool
  events : List SimEv
  deriving DecidableEq, Repr

/-- The condition in `LBMSim.sim_step` choosing the data-extraction branch:
`(not benchmark and (not batch or (batch and output)) and i % every == 0)
 or get_data`. -/
def sim_step_cond (opts : Options) (i : Nat) (get_data : Bool) : Bool :=
  (!opts.benchmark && (!opts.batch || (opts.batch && opts.output ≠ "")) &&
    (i % opts.every == 0)) || get_data

/-- `LBMSim.sim_step`: run one step, writing output when configured, and
increment `iter_` by one. -/
def sim_step (opts : Options) (dim iter : Nat) (tracers get_data : Bool) :
    StepResult :=
  if sim_step_cond opts iter get_data then
    { iter' := iter + 1
      extracted := true
      events := _lbm_step dim iter true tracers
        ++ (if opts.output ≠ "" && (iter % opts.every == 0)
            then [.outputData iter] else []) }
  else
    { iter' := iter + 1
      extracted := false
      events := _lbm_step dim iter false tracers }

/-- The distribution buffer holding the current state at iteration `n`
(cf. `hostsync_dist`: buffer A when `iter_` is even, buffer B when odd). -/
def distBuf (n : Nat) : GpuBuf :=
  if n % 2 = 0 then .dist1a else .dist1b

/-! ### Hook registry and the batch scheduler -/

/-- The two hook dictionaries of `LBMSim` (`iter__hooks`,
`iter__hooks_every`), as association lists from iteration index (or
interval) to the registered callback identifiers, in registration order. -/
structure HookTable where
  iter__hooks : List (Nat × List Nat) := []
  iter__hooks_every : List (Nat × List Nat) := []
  deriving DecidableEq, Repr

/-- `dict.setdefault(i, []).append(f)` on an association list. -/
def dictAppend : List (Nat × List Nat) → Nat → Nat → List (Nat × List Nat)
  | [], i, f => [(i, [f])]
  | (k, v) :: rest, i, f =>
    if k = i then (k, v ++ [f]) :: rest else (k, v) :: dictAppend rest i f

/-- `LBMSim.add_iter_hook`. -/
def add_iter_hook (ht : HookTable) (i func : Nat) (every : Bool) : HookTable :=
  if every then
    { ht with iter__hooks_every := dictAppend ht.iter__hooks_every i func }
  else
    { ht with iter__hooks := dictAppend ht.iter__hooks i func }

/-- `LBMSim.clear_hooks`. -/
def clear_hooks : HookTable := {}

/-- The `need_data` computation at the top of the `_run_batch` loop body:
`self.iter_ in self.iter__hooks`, or some registered interval `k` with
`self.iter_ % k == 0`. -/
def needData (ht : HookTable) (it : Nat) : Bool :=
  ht.iter__hooks.any (fun p => p.1 == it) ||
    ht.iter__hooks_every.any (fun p => it % p.1 == 0)

/-- `self.iter__hooks.get(j, [])`. -/
def hooksFor (tbl : List (Nat × List Nat)) (j : Nat) : List Nat :=
  (tbl.lookup j).getD []

/-- Events recorded by the batch scheduler: one `step` per iteration with
its data-extraction flag, and one `hook` per fired callback. -/
inductive BatchEv where
  | step (i : Nat) (extracted : Bool)
  | hook (f : Nat)
  deriving DecidableEq, Repr

/-- The periodic-hook firing loop after a data step:
`for k, v in iter__hooks_every.iteritems(): if (iter_-1) % k == 0: ...`. -/
def fireEvery (j : Nat) : List (Nat × List Nat) → List BatchEv
  | [] => []
  | (k, v) :: rest =>
    (if j % k == 0 then v.map BatchEv.hook else []) ++ fireEvery j rest

/-- The body of `LBMSim._run_batch`, iterated `n` more times with the
iteration counter at `it`. -/
def _run_batch_go (opts : Options) (dim : Nat) (ht : HookTable) :
    Nat → Nat → List BatchEv
  | 0, _ => []
  | n + 1, it =>
    let nd := needData ht it
    let res := sim_step opts dim it false nd
    BatchEv.step it res.extracted ::
      ((if nd then
          (hooksFor ht.iter__hooks (res.iter' - 1)).map BatchEv.hook
            ++ fireEvery (res.iter' - 1) ht.iter__hooks_every
        else []) ++ _run_batch_go opts dim ht n res.iter')

/-- `LBMSim._run_batch`: `for i in range(0, max_iters)` starting from
`iter_ = 0`. -/
def _run_batch (opts : Options) (dim : Nat) (ht : HookTable) : List BatchEv :=
  _run_batch_go opts dim ht opts.max_iters 0

/-- Per-iteration extraction flags of a batch trace. -/
def stepFlags : List BatchEv → List (Nat × Bool)
  | [] => []
  | .step i b :: rest => (i, b) :: stepFlags rest
  | .hook _ :: rest => stepFlags rest

/-! ### The benchmark scheduler -/

/-- The `while True` loop of `LBMSim._run_benchmark`: each pass performs
`cycles = every` calls to `sim_step` and stops once
`max_iters <= iter_`.  The loop is given explicit fuel because for
`every = 0` the source loops forever; `none` marks fuel exhaustion. -/
def _run_benchmark_go (opts : Options) (dim : Nat) :
    Nat → Nat → Option Nat
  | 0, _ => none
  | fuel + 1, it =>
    let it' := (List.range opts.every).foldl
      (fun j _ => (sim_step opts dim j false false).iter') it
    if opts.max_iters ≤ it' then some it' else _run_benchmark_go opts dim fuel it'

/-- `LBMSim._run_benchmark` starting from `iter_ = 0`; returns the final
`iter_` (the total number of iterations performed).  Fuel
`max_iters + 1` is sufficient whenever `every ≥ 1`. -/
def _run_benchmark (opts : Options) (dim : Nat) : Option Nat :=
  _run_benchmark_go opts dim (opts.max_iters + 1) 0

/-! ### The MLUPS throughput metric -/

/-- The mutable state read and written by `get_mlups`
(`self._mlups_calls`, `self._mlups`). -/
structure MlupsState where
  _mlups_calls : Nat
  _mlups : ℚ
  deriving DecidableEq, Repr

/-- Initial values set in `LBMSim.__init__`. -/
def mlups_init : MlupsState := ⟨0, 0⟩

/-- `LBMSim.get_mlups`: computes the instantaneous throughput
`float(it) * count_active_nodes * 1e-6 / tdiff`, folds it into the
running average `(mlups + _mlups * _mlups_calls) / (_mlups_calls + 1)`,
and returns `(_mlups, mlups)` together with the updated state. -/
def get_mlups (st : MlupsState) (count_active every : Nat) (tdiff : ℚ)
    (iters : Option Nat) : (ℚ × ℚ) × MlupsState :=
  let it : Nat := iters.getD every
  let mlups : ℚ := (it : ℚ) * (count_active : ℚ) * (1 / 1000000) / tdiff
  let avg : ℚ := (mlups + st._mlups * st._mlups_calls) / (st._mlups_calls + 1)
  ((avg, mlups), ⟨st._mlups_calls + 1, avg⟩)

/-- The instantaneous value computed by one `get_mlups` call with inputs
`(tdiff, iters)`. -/
def mlups_inst (count_active every : Nat) (p : ℚ × Option Nat) : ℚ :=
  ((p.2.getD every : Nat) : ℚ) * (count_active : ℚ) * (1 / 1000000) / p.1

/-- Iterated `get_mlups` calls (state evolution only). -/
def mlups_run (count_active every : Nat) (st : MlupsState) :
    List (ℚ × Option Nat) → MlupsState
  | [] => st
  | (tdiff, iters) :: rest =>
    mlups_run count_active every (get_mlups st count_active every tdiff iters).2 rest

/-! ### The precision-widening text transform (`_convert_to_double`)

`_convert_to_double(src)` is
`re.sub('([0-9]+\.[0-9]*)f([^a-zA-Z0-9\.])', '\\1\\2',
        src.replace('float', 'double'))`.
`replaceFD` embeds `str.replace('float', 'double')` (leftmost,
non-overlapping) and `regexSub` embeds `re.sub` with that pattern
(leftmost match, greedy quantifiers — backtracking-free here because the
character classes are disjoint from the literal characters that follow
them). -/

/-- The character class `[0-9]`. -/
def isDigitC (c : Char) : Bool := '0' ≤ c && c ≤ '9'

/-- The character class `[a-zA-Z0-9.]` (its complement is the regex's
trailing delimiter class `[^a-zA-Z0-9\.]`). -/
def isIdentDot (c : Char) : Bool :=
  ('a' ≤ c && c ≤ 'z') || ('A' ≤ c && c ≤ 'Z') || isDigitC c || c == '.'

/-- Attempt to match `([0-9]+\.[0-9]*)f([^a-zA-Z0-9\.])` at the head of
`s`; on success, return the replacement text `\1\2` together with the
remainder of the input after the match. -/
def matchLit (s : List Char) : Option (List Char × List Char) :=
  let d1 := s.takeWhile isDigitC
  match s.dropWhile isDigitC with
  | '.' :: r2 =>
    if d1.isEmpty then none
    else
      let d2 := r2.takeWhile isDigitC
      match r2.dropWhile isDigitC with
      | 'f' :: c :: r4 =>
        if isIdentDot c then none else some (d1 ++ '.' :: (d2 ++ [c]), r4)
      | _ => none
  | _ => none

lemma dropWhile_len_le (p : Char → Bool) (l : List Char) :
    (l.dropWhile p).length ≤ l.length := by
  induction l with
  | nil => simp
  | cons a t ih =>
    by_cases h : p a = true <;> simp [List.dropWhile_cons, h] <;> omega

lemma matchLit_some_len {s rep rest} (h : matchLit s = some (rep, rest)) :
    rest.length < s.length := by
  simp only [matchLit] at h
  split at h
  case h_2 => simp at h
  case h_1 r2 heq =>
    split at h
    · simp at h
    · split at h
      case h_1 c r4 heq2 =>
        split at h
        · simp at h
        · have hl1 : r2.length + 1 ≤ s.length := by
            have := dropWhile_len_le isDigitC s
            rw [heq] at this; simpa using this
          have hl2 : r4.length + 2 ≤ r2.length := by
            have := dropWhile_len_le isDigitC r2
            rw [heq2] at this; simpa using this
          simp only [Option.some.injEq, Prod.mk.injEq] at h
          obtain ⟨-, h2⟩ := h
          subst h2
          omega
      case h_2 => simp at h

/-- The `re.sub` scan: at each position try `matchLit`; on a match, emit
the replacement and continue after the consumed text, otherwise emit one
character and advance. -/
def regexSub (s : List Char) : List Char :=
  match s with
  | [] => []
  | a :: t =>
    match h : matchLit (a :: t) with
    | some (rep, rest) => rep ++ regexSub rest
    | none => a :: regexSub t
termination_by s.length
decreasing_by
  · exact matchLit_some_len h
  · simp only [List.length_cons]; omega

/-- `'float'` as a character list. -/
def floatChars : List Char := ['f', 'l', 'o', 'a', 't']

/-- `'double'` as a character list. -/
def doubleChars : List Char := ['d', 'o', 'u', 'b', 'l', 'e']

/-- `str.replace('float', 'double')`: leftmost-first, non-overlapping. -/
def replaceFD (s : List Char) : List Char :=
  match s with
  | [] => []
  | a :: t =>
    if (a :: t).take 5 = floatChars then doubleChars ++ replaceFD ((a :: t).drop 5)
    else a :: replaceFD t
termination_by s.length
decreasing_by
  · simp only [List.drop_succ_cons, List.length_drop, List.length_cons]; omega
  · simp only [List.length_cons]; omega

/-- `_convert_to_double`: first `src.replace('float', 'double')`, then the
regex substitution. -/
def _convert_to_double (src : List Char) : List Char :=
  regexSub (replaceFD src)

/-! ### Code generation (`_init_code`) -/

/-- Observable actions of `LBMSim._init_code` after rendering. -/
inductive CodeEv where
  | render
  | save (path : String) (text : List Char)
  | formatPass (path : String)
  | build (text : List Char)
  deriving DecidableEq, Repr

/-- `LBMSim._init_code`, given the rendered template text and a read-only
file system (`none` = unreadable file): renders, converts to double
precision if configured, persists (and optionally formats) the source
when `save_src` is set, then replaces the text with the contents of the
`use_src` override if one is configured (an unreadable override is a
fatal error and nothing is built), and finally builds. -/
def _init_code (opts : Options) (rendered : List Char)
    (fs : String → Option (List Char)) : Except Unit (List CodeEv) :=
  let src := if _is_double_precision opts then _convert_to_double rendered
    else rendered
  let evs := [CodeEv.render]
    ++ (if opts.save_src ≠ "" then
          [CodeEv.save opts.save_src src]
            ++ (if opts.format_src then [CodeEv.formatPass opts.save_src] else [])
        else [])
  if opts.use_src ≠ "" then
    match fs opts.use_src with
    | none => .error ()
    | some content => .ok (evs ++ [CodeEv.build content])
  else
    .ok (evs ++ [CodeEv.build src])

end Sailfish

/-! ## Theorems -/

namespace Sailfish

lemma and_one_mod_two (n : Nat) : n &&& 1 = n % 2 := Nat.and_one_is_mod n

lemma kern_map_cnp_read (dim n : Nat) :
    readDist (kern_map dim (n % 2)).cnp = some (.buf (distBuf n)) := by
  rcases Nat.mod_two_eq_zero_or_one n with h | h <;>
    simp [kern_map, distBuf, readDist, args1, args2, h]

lemma kern_map_cnp_write (dim n : Nat) :
    writeDist (kern_map dim (n % 2)).cnp = some (.buf (distBuf (n + 1))) := by
  rcases Nat.mod_two_eq_zero_or_one n with h | h <;>
    simp [kern_map, distBuf, writeDist, args1, args2, h, Nat.add_mod,
      Nat.succ_mod_two_eq_zero_iff]

lemma kern_map_cnps_read (dim n : Nat) :
    readDist (kern_map dim (n % 2)).cnps = some (.buf (distBuf n)) := by
  rcases Nat.mod_two_eq_zero_or_one n with h | h <;>
    simp [kern_map, distBuf, readDist, args1v, args2v, h]

lemma kern_map_cnps_write (dim n : Nat) :
    writeDist (kern_map dim (n % 2)).cnps = some (.buf (distBuf (n + 1))) := by
  rcases Nat.mod_two_eq_zero_or_one n with h | h <;>
    simp [kern_map, distBuf, writeDist, args1v, args2v, h, Nat.add_mod,
      Nat.succ_mod_two_eq_zero_iff]

lemma distBuf_alternates (n : Nat) : distBuf (n + 1) ≠ distBuf n := by
  rcases Nat.mod_two_eq_zero_or_one n with h | h <;>
    simp [distBuf, h, Nat.add_mod, Nat.succ_mod_two_eq_zero_iff]

lemma sim_step_head_kernel (opts : Options) (dim iter : Nat)
    (tracers get_data : Bool) :
    (sim_step opts dim iter tracers get_data).events.head? =
      some (.runKernel (if (sim_step opts dim iter tracers get_data).extracted
        then (kern_map dim (iter &&& 1)).cnps
        else (kern_map dim (iter &&& 1)).cnp)) := by
  unfold sim_step _lbm_step
  by_cases h : sim_step_cond opts iter get_data = true <;> simp [h]

/-- C1. Every `sim_step` call increments `iter_` by exactly one in both
branches; the collide-and-propagate kernel launched first at iteration `n`
is taken from the parity-`n&1` entry of `kern_map`, reads the buffer
`distBuf n` and writes `distBuf (n+1)`, so that the buffer written at step
`n` is exactly the buffer read at step `n+1`, and the two buffers strictly
alternate roles (never the same role twice in a row). -/
theorem sim_step_parity_invariant (opts : Options) (dim iter : Nat)
    (tracers get_data : Bool) :
    (sim_step opts dim iter tracers get_data).iter' = iter + 1 ∧
    (∃ k : Kernel,
      (sim_step opts dim iter tracers get_data).events.head? =
        some (.runKernel k) ∧
      (k = (kern_map dim (iter &&& 1)).cnp ∨
        k = (kern_map dim (iter &&& 1)).cnps) ∧
      readDist k = some (.buf (distBuf iter)) ∧
      writeDist k = some (.buf (distBuf (iter + 1)))) ∧
    distBuf (iter + 1) ≠ distBuf iter := by
  refine ⟨?_, ?_, distBuf_alternates iter⟩
  · unfold sim_step
    by_cases h : sim_step_cond opts iter get_data = true <;> simp [h]
  · refine ⟨if (sim_step opts dim iter tracers get_data).extracted
      then (kern_map dim (iter &&& 1)).cnps
      else (kern_map dim (iter &&& 1)).cnp,
      sim_step_head_kernel opts dim iter tracers get_data, ?_, ?_, ?_⟩
    · by_cases h : (sim_step opts dim iter tracers get_data).extracted <;> simp [h]
    · by_cases h : (sim_step opts dim iter tracers get_data).extracted <;>
        simp [h, and_one_mod_two, kern_map_cnp_read, kern_map_cnps_read]
    · by_cases h : (sim_step opts dim iter tracers get_data).extracted <;>
        simp [h, and_one_mod_two, kern_map_cnp_write, kern_map_cnps_write]

/-- C4. `get_tau` computes exactly `(6·visc + 1)/2` and is monotonically
increasing in the viscosity (it does not depend on the grid/model pair). -/
theorem get_tau_formula_and_mono :
    (∀ opts : Options, get_tau opts = (6 * opts.visc + 1) / 2) ∧
    (∀ o1 o2 : Options, o1.visc ≤ o2.visc → get_tau o1 ≤ get_tau o2) := by
  refine ⟨fun opts => rfl, fun o1 o2 h => ?_⟩
  unfold get_tau
  linarith

/-- Witness for C4 at concrete viscosities 1/100 (default) and 2. -/
theorem get_tau_formula_and_mono_witness :
    get_tau {} = (6 * (1/100 : ℚ) + 1) / 2 ∧
    (({} : Options).visc ≤ ({ visc := 2 } : Options).visc ∧
      get_tau {} ≤ get_tau { visc := 2 }) :=
  ⟨get_tau_formula_and_mono.1 {},
    by norm_num [Options.visc],
    get_tau_formula_and_mono.2 {} { visc := 2 } (by norm_num [Options.visc])⟩

/-- C10 counterexample: in 3D (e.g. `lat_nx = 128`, `lat_ny = 2`,
`lat_nz = 4`) the launch grid x-dimension is
`lat_nx/block_size * lat_ny = 4`, not the plain floor division
`lat_nx/block_size = 2` that the claim states. -/
theorem kern_grid_x_counterexample :
    (kern_grid_size 3 128 2 4 (block_size 128)).head? = some 4 ∧
    128 / block_size 128 = 2 ∧ (4 : Nat) ≠ 2 := by decide

/-- C10 (amended). The effective block size is `min 64 lat_nx` (so a
`lat_nx` below 64 reduces it to `lat_nx` exactly) and is the first entry
of the launch block passed to the backend; the launch grid x-dimension is
the floor division `lat_nx / block_size` in 2D and
`lat_nx / block_size * lat_ny` in 3D; when the block size divides
`lat_nx`, `block_size * (lat_nx / block_size)` covers all `lat_nx`
columns exactly. -/
theorem block_size_min_and_grid (nx ny nz : Nat) (h : 1 ≤ nx) :
    block_size nx = min 64 nx ∧
    (nx < 64 → block_size nx = nx) ∧
    (∀ dim, (_kernel_block_size dim (block_size nx)).head? = some (block_size nx)) ∧
    (kern_grid_size 2 nx ny nz (block_size nx)).head? = some (nx / block_size nx) ∧
    (kern_grid_size 3 nx ny nz (block_size nx)).head? =
      some (nx / block_size nx * ny) ∧
    (block_size nx ∣ nx → block_size nx * (nx / block_size nx) = nx) := by
  refine ⟨?_, ?_, ?_, ?_, ?_, fun hd => Nat.mul_div_cancel' hd⟩
  · unfold block_size; split <;> omega
  · intro h64; unfold block_size; split <;> omega
  · intro dim; unfold _kernel_block_size; split <;> rfl
  · simp [kern_grid_size]
  · simp [kern_grid_size]

/-- Witness for C10 at `lat_nx = 32`, `lat_ny = 5`, `lat_nz = 7`. -/
theorem block_size_min_and_grid_witness :
    (1 ≤ 32) ∧
    (block_size 32 = min 64 32 ∧
      (32 < 64 → block_size 32 = 32) ∧
      (∀ dim, (_kernel_block_size dim (block_size 32)).head? = some (block_size 32)) ∧
      (kern_grid_size 2 32 5 7 (block_size 32)).head? = some (32 / block_size 32) ∧
      (kern_grid_size 3 32 5 7 (block_size 32)).head? =
        some (32 / block_size 32 * 5) ∧
      (block_size 32 ∣ 32 → block_size 32 * (32 / block_size 32) = 32)) :=
  ⟨by decide, block_size_min_and_grid 32 5 7 (by decide)⟩

/-! ### Batch mode (C2, C3) -/

lemma sim_step_iter' (opts : Options) (dim i : Nat) (t g : Bool) :
    (sim_step opts dim i t g).iter' = i + 1 := by
  unfold sim_step
  by_cases h : sim_step_cond opts i g = true <;> simp [h]

lemma sim_step_extracted (opts : Options) (dim i : Nat) (t g : Bool) :
    (sim_step opts dim i t g).extracted = sim_step_cond opts i g := by
  unfold sim_step
  by_cases h : sim_step_cond opts i g = true <;> simp [h]

lemma sim_step_cond_batch (opts : Options) (hb : opts.benchmark = false)
    (hbt : opts.batch = true) (ho : opts.output = "") (i : Nat) (g : Bool) :
    sim_step_cond opts i g = g := by
  simp [sim_step_cond, hb, hbt, ho]

lemma stepFlags_append (l1 l2 : List BatchEv) :
    stepFlags (l1 ++ l2) = stepFlags l1 ++ stepFlags l2 := by
  induction l1 with
  | nil => rfl
  | cons a t ih => cases a <;> simp [stepFlags, ih]

lemma stepFlags_hooks (l : List Nat) : stepFlags (l.map BatchEv.hook) = [] := by
  induction l with
  | nil => rfl
  | cons a t ih => simp [stepFlags, ih]

lemma stepFlags_fireEvery (j : Nat) (tbl : List (Nat × List Nat)) :
    stepFlags (fireEvery j tbl) = [] := by
  induction tbl with
  | nil => rfl
  | cons p rest ih =>
    obtain ⟨k, v⟩ := p
    simp only [fireEvery, stepFlags_append, ih, List.append_nil]
    split <;> simp [stepFlags_hooks, stepFlags]

lemma run_batch_go_flags (opts : Options) (dim : Nat) (ht : HookTable)
    (hb : opts.benchmark = false) (hbt : opts.batch = true)
    (ho : opts.output = "") :
    ∀ n it, stepFlags (_run_batch_go opts dim ht n it) =
      (List.range n).map (fun j => (it + j, needData ht (it + j))) := by
  intro n
  induction n with
  | zero => intro it; simp [_run_batch_go, stepFlags]
  | succ n ih =>
    intro it
    simp only [_run_batch_go, sim_step_iter', Nat.add_sub_cancel]
    rw [stepFlags, stepFlags_append]
    have hhooks : stepFlags (if needData ht it then
        (hooksFor ht.iter__hooks it).map BatchEv.hook
          ++ fireEvery it ht.iter__hooks_every else []) = [] := by
      split
      · rw [stepFlags_append, stepFlags_hooks, stepFlags_fireEvery]; rfl
      · rfl
    rw [hhooks, List.nil_append, ih (it + 1), sim_step_extracted,
      sim_step_cond_batch opts hb hbt ho, List.range_succ_eq_map]
    simp only [List.map_cons, List.map_map, Nat.add_zero]
    refine congrArg₂ _ rfl ?_
    refine List.map_congr_left fun j _ => ?_
    simp only [Function.comp_apply, Nat.succ_eq_add_one]
    have hsum : it + 1 + j = it + (j + 1) := by omega
    rw [hsum]

/-- C2 counterexample: in batch mode with an output file configured
(`output = "out.h5"`, `max_iters = 1`, no hooks registered), iteration 0
is a data-extraction step even though index 0 has no exact-match hook and
is a multiple of no registered interval. -/
theorem run_batch_output_forces_extraction :
    stepFlags (_run_batch { batch := true, output := "out.h5", max_iters := 1 } 2 {}) =
      [(0, true)] ∧
    needData {} 0 = false := by decide

/-- C2 (amended). In batch mode with no output destination configured
(`output = ""`), for every iteration index `i` from 0 to `max_iters - 1`
a data-extraction step is performed at index `i` if and only if an
exact-match hook is registered for index `i` or `i` is a multiple of some
registered periodic-hook interval. -/
theorem run_batch_extraction_iff_hooks (opts : Options) (dim : Nat)
    (ht : HookTable) (hb : opts.benchmark = false) (hbt : opts.batch = true)
    (ho : opts.output = "") :
    stepFlags (_run_batch opts dim ht) =
      (List.range opts.max_iters).map (fun i => (i, needData ht i)) ∧
    ∀ i, needData ht i = true ↔
      ((∃ p ∈ ht.iter__hooks, p.1 = i) ∨ ∃ p ∈ ht.iter__hooks_every, i % p.1 = 0) := by
  constructor
  · have := run_batch_go_flags opts dim ht hb hbt ho opts.max_iters 0
    simpa [_run_batch] using this
  · intro i
    simp [needData, List.any_eq_true]

/-- Witness for C2 (amended): batch mode, `max_iters = 2`, one exact-match
hook at index 1. -/
theorem run_batch_extraction_iff_hooks_witness :
    ({ batch := true, max_iters := 2 } : Options).benchmark = false ∧
    ({ batch := true, max_iters := 2 } : Options).batch = true ∧
    ({ batch := true, max_iters := 2 } : Options).output = "" ∧
    (stepFlags (_run_batch { batch := true, max_iters := 2 } 2
        (add_iter_hook {} 1 7 false)) =
      (List.range ({ batch := true, max_iters := 2 } : Options).max_iters).map
        (fun i => (i, needData (add_iter_hook {} 1 7 false) i)) ∧
    ∀ i, needData (add_iter_hook {} 1 7 false) i = true ↔
      ((∃ p ∈ (add_iter_hook {} 1 7 false).iter__hooks, p.1 = i) ∨
        ∃ p ∈ (add_iter_hook {} 1 7 false).iter__hooks_every, i % p.1 = 0)) :=
  ⟨rfl, rfl, rfl,
    run_batch_extraction_iff_hooks { batch := true, max_iters := 2 } 2
      (add_iter_hook {} 1 7 false) rfl rfl rfl⟩

/-- C3. Batch-mode scenario: `max_iters = 10`, exact-match hook (id 1) at
iteration 5, periodic hook (id 2) every 3 iterations.  The full trace:
the periodic hook fires exactly after completed indices 0, 3, 6, 9, the
exact-match hook exactly after completed index 5 (i.e. right after the
step in which `iter_` becomes 6), and no hook fires anywhere else. -/
theorem batch_hook_scenario :
    _run_batch { batch := true, max_iters := 10 } 2
        (add_iter_hook (add_iter_hook clear_hooks 5 1 false) 3 2 true) =
      [.step 0 true, .hook 2, .step 1 false, .step 2 false,
       .step 3 true, .hook 2, .step 4 false,
       .step 5 true, .hook 1,
       .step 6 true, .hook 2, .step 7 false, .step 8 false,
       .step 9 true, .hook 2] := by decide

/-! ### Benchmark mode (C8) -/

lemma bench_inner (opts : Options) (dim : Nat) :
    ∀ (l : List Nat) (it : Nat),
      l.foldl (fun j _ => (sim_step opts dim j false false).iter') it =
        it + l.length := by
  intro l
  induction l with
  | nil => intro it; simp
  | cons a t ih =>
    intro it
    rw [List.foldl_cons, sim_step_iter', ih]
    simp only [List.length_cons]
    omega

lemma bench_go_succ (opts : Options) (dim fuel it : Nat) :
    _run_benchmark_go opts dim (fuel + 1) it =
      (if opts.max_iters ≤ it + opts.every then some (it + opts.every)
       else _run_benchmark_go opts dim fuel (it + opts.every)) := by
  simp only [_run_benchmark_go]
  rw [bench_inner opts dim (List.range opts.every) it, List.length_range]

lemma bench_go_spec (opts : Options) (dim : Nat) (he : 1 ≤ opts.every) :
    ∀ fuel it, 1 ≤ fuel → opts.max_iters ≤ it + opts.every * fuel →
      ∃ j, 1 ≤ j ∧
        _run_benchmark_go opts dim fuel it = some (it + opts.every * j) ∧
        opts.max_iters ≤ it + opts.every * j ∧
        (j = 1 ∨ it + opts.every * (j - 1) < opts.max_iters) := by
  intro fuel
  induction fuel with
  | zero => intro it h1 _; omega
  | succ fuel ih =>
    intro it _ h2
    rw [bench_go_succ]
    by_cases hstop : opts.max_iters ≤ it + opts.every
    · exact ⟨1, le_refl 1, by rw [if_pos hstop, Nat.mul_one], by simpa [Nat.mul_one], Or.inl rfl⟩
    · rw [if_neg hstop]
      have hms : opts.every * (fuel + 1) = opts.every * fuel + opts.every := by ring
      have hfuel : 1 ≤ fuel := by
        rcases Nat.eq_zero_or_pos fuel with h0 | h0
        · subst h0; rw [hms] at h2; omega
        · exact h0
      have h2' : opts.max_iters ≤ (it + opts.every) + opts.every * fuel := by
        rw [hms] at h2; omega
      obtain ⟨j, hj1, hgo, hle, hmin⟩ := ih (it + opts.every) hfuel h2'
      obtain ⟨j', rfl⟩ : ∃ j', j = j' + 1 := ⟨j - 1, by omega⟩
      have hms2 : opts.every * (j' + 1 + 1) = opts.every * (j' + 1) + opts.every := by ring
      refine ⟨j' + 2, by omega, ?_, by rw [hms2]; omega, ?_⟩
      · rw [hgo]
        congr 1
        rw [hms2]
        omega
      · right
        have : j' + 2 - 1 = j' + 1 := by omega
        rw [this]
        rcases hmin with h | h
        · have hj0 : j' = 0 := by omega
          subst hj0
          simp only [Nat.zero_add, Nat.mul_one]
          omega
        · have hms3 : opts.every * (j' + 1) = opts.every * j' + opts.every := by ring
          simp only [Nat.add_sub_cancel] at h
          rw [hms3]
          omega

/-- C8 counterexample: with `every = 2` and `max_iters = 3`, the benchmark
run performs 4 iterations, not `max_iters = 3`. -/
theorem run_benchmark_overshoot_counterexample :
    _run_benchmark { benchmark := true, every := 2, max_iters := 3 } 2 = some 4 ∧
    (4 : Nat) ≠ 3 := by decide

/-- C8 (amended). For `every ≥ 1`, benchmark mode terminates after
executing whole batches of `every` iterations each: the total iteration
count `r` is a multiple of `every`, it is at least `max_iters`, it is the
least such batch boundary whenever `max_iters ≥ 1`, and it equals
`max_iters` exactly when additionally `every` divides `max_iters` (the
loop body always runs at least once, so `max_iters = 0` still yields one
full batch). -/
theorem run_benchmark_terminates_in_batches (opts : Options) (dim : Nat)
    (he : 1 ≤ opts.every) :
    ∃ r, _run_benchmark opts dim = some r ∧
      opts.every ∣ r ∧
      opts.max_iters ≤ r ∧
      (1 ≤ opts.max_iters → r - opts.every < opts.max_iters) ∧
      (1 ≤ opts.max_iters → opts.every ∣ opts.max_iters →
        r = opts.max_iters) := by
  have hbound : opts.max_iters ≤ 0 + opts.every * (opts.max_iters + 1) := by
    have := Nat.le_mul_of_pos_left (opts.max_iters + 1) (show 0 < opts.every by omega)
    omega
  obtain ⟨j, hj1, hgo, hle, hmin⟩ :=
    bench_go_spec opts dim he (opts.max_iters + 1) 0 (by omega) hbound
  simp only [Nat.zero_add] at hgo hle hmin
  have hm : ∀ m, opts.max_iters = opts.every * m → 1 ≤ opts.max_iters →
      opts.every * j = opts.every * m := by
    intro m hmeq hmi
    have hle' : opts.every * m ≤ opts.every * j := by rw [← hmeq]; exact hle
    have h1 : m ≤ j := Nat.le_of_mul_le_mul_left hle' (by omega)
    rcases hmin with rfl | h
    · have hm1 : m ≤ 1 := Nat.le_of_mul_le_mul_left hle' (by omega)
      have hm2 : 1 ≤ m := by
        rcases Nat.eq_zero_or_pos m with h0 | h0
        · subst h0; simp at hmeq; omega
        · exact h0
      have : m = 1 := by omega
      rw [this]
    · obtain ⟨j', rfl⟩ : ∃ j', j = j' + 1 := ⟨j - 1, by omega⟩
      simp only [Nat.add_sub_cancel] at h
      rw [hmeq] at h
      have hj'm : j' < m := Nat.lt_of_mul_lt_mul_left h
      have : m = j' + 1 := by omega
      rw [this]
  refine ⟨opts.every * j, by simpa [_run_benchmark] using hgo,
    Dvd.intro j rfl, hle, ?_, ?_⟩
  · intro hmi
    rcases hmin with rfl | h
    · simp only [Nat.mul_one]; omega
    · obtain ⟨j', rfl⟩ : ∃ j', j = j' + 1 := ⟨j - 1, by omega⟩
      simp only [Nat.add_sub_cancel] at h
      have : opts.every * (j' + 1) = opts.every * j' + opts.every := by ring
      omega
  · intro hmi hdvd
    obtain ⟨m, hmeq⟩ := hdvd
    rw [hmeq]
    exact hm m hmeq hmi

/-- Witness for C8 at `every = 2`, `max_iters = 4`. -/
theorem run_benchmark_terminates_in_batches_witness :
    1 ≤ ({ benchmark := true, every := 2, max_iters := 4 } : Options).every ∧
    ∃ r, _run_benchmark { benchmark := true, every := 2, max_iters := 4 } 2 = some r ∧
      ({ benchmark := true, every := 2, max_iters := 4 } : Options).every ∣ r ∧
      ({ benchmark := true, every := 2, max_iters := 4 } : Options).max_iters ≤ r ∧
      (1 ≤ ({ benchmark := true, every := 2, max_iters := 4 } : Options).max_iters →
        r - ({ benchmark := true, every := 2, max_iters := 4 } : Options).every <
          ({ benchmark := true, every := 2, max_iters := 4 } : Options).max_iters) ∧
      (1 ≤ ({ benchmark := true, every := 2, max_iters := 4 } : Options).max_iters →
        ({ benchmark := true, every := 2, max_iters := 4 } : Options).every ∣
          ({ benchmark := true, every := 2, max_iters := 4 } : Options).max_iters →
        r = ({ benchmark := true, every := 2, max_iters := 4 } : Options).max_iters) :=
  ⟨by decide,
    run_benchmark_terminates_in_batches
      { benchmark := true, every := 2, max_iters := 4 } 2 (by decide)⟩

/-! ### The MLUPS metric (C9) -/

lemma mlups_run_invariant (ca e : Nat) :
    ∀ (L : List (ℚ × Option Nat)) (st : MlupsState),
      (mlups_run ca e st L)._mlups_calls = st._mlups_calls + L.length ∧
      (mlups_run ca e st L)._mlups * ((st._mlups_calls : ℚ) + L.length) =
        st._mlups * (st._mlups_calls : ℚ) + (L.map (mlups_inst ca e)).sum := by
  intro L
  induction L with
  | nil =>
    intro st
    refine ⟨rfl, ?_⟩
    simp only [mlups_run, List.length_nil, List.map_nil, List.sum_nil,
      Nat.cast_zero, add_zero]
  | cons p rest ih =>
    intro st
    obtain ⟨t, i⟩ := p
    simp only [mlups_run]
    obtain ⟨ih1, ih2⟩ := ih (get_mlups st ca e t i).2
    have hcalls : (get_mlups st ca e t i).2._mlups_calls = st._mlups_calls + 1 := rfl
    have hne : ((st._mlups_calls : ℚ) + 1) ≠ 0 := by positivity
    have hx : (((st._mlups_calls + 1 : Nat)) : ℚ) = (st._mlups_calls : ℚ) + 1 := by
      push_cast
      ring
    have havg : (get_mlups st ca e t i).2._mlups * (((st._mlups_calls + 1 : Nat)) : ℚ) =
        mlups_inst ca e (t, i) + st._mlups * (st._mlups_calls : ℚ) := by
      rw [hx]
      show (mlups_inst ca e (t, i) + st._mlups * (st._mlups_calls : ℚ)) /
          ((st._mlups_calls : ℚ) + 1) * ((st._mlups_calls : ℚ) + 1) = _
      rw [div_mul_cancel₀ _ hne]
    constructor
    · rw [ih1, hcalls, List.length_cons]
      omega
    · rw [hcalls] at ih2
      have hcast : (st._mlups_calls : ℚ) + (((t, i) :: rest).length : ℚ) =
          ((st._mlups_calls + 1 : Nat) : ℚ) + (rest.length : ℚ) := by
        simp only [List.length_cons]
        push_cast
        ring
      rw [hcast, ih2, havg]
      simp only [List.map_cons, List.sum_cons]
      ring

/-- C9. `get_mlups` returns, as its first component, a running weighted
average of the instantaneous throughput values: on the very first call
(`_mlups_calls = 0`, `_mlups = 0`) the average equals the instantaneous
value itself; on every call from state `st` the returned average blends
the new instantaneous value with weight `1/(calls+1)` into the previous
average with weight `calls/(calls+1)`; and after any nonempty sequence of
calls the stored average is exactly the mean of all instantaneous values
seen so far. -/
theorem get_mlups_first_and_blend (ca e : Nat) :
    (∀ (t : ℚ) (i : Option Nat),
      ((get_mlups mlups_init ca e t i).1).1 = ((get_mlups mlups_init ca e t i).1).2) ∧
    (∀ (st : MlupsState) (t : ℚ) (i : Option Nat),
      ((get_mlups st ca e t i).1).1 =
        (1 / ((st._mlups_calls : ℚ) + 1)) * ((get_mlups st ca e t i).1).2 +
          ((st._mlups_calls : ℚ) / ((st._mlups_calls : ℚ) + 1)) * st._mlups) ∧
    (∀ L : List (ℚ × Option Nat), L ≠ [] →
      (mlups_run ca e mlups_init L)._mlups =
        (L.map (mlups_inst ca e)).sum / (L.length : ℚ)) := by
  refine ⟨?_, ?_, ?_⟩
  · intro t i
    simp [get_mlups, mlups_init]
  · intro st t i
    have hne : ((st._mlups_calls : ℚ) + 1) ≠ 0 := by positivity
    show (((get_mlups st ca e t i).1).2 + st._mlups * (st._mlups_calls : ℚ)) /
        ((st._mlups_calls : ℚ) + 1) = _
    generalize ((get_mlups st ca e t i).1).2 = v
    field_simp
    ring
  · intro L hL
    obtain ⟨h1, h2⟩ := mlups_run_invariant ca e L mlups_init
    simp only [mlups_init, Nat.cast_zero, zero_add, zero_mul] at h1 h2
    have hlen : ((L.length : Nat) : ℚ) ≠ 0 := by
      have : L.length ≠ 0 := fun hc => hL (List.length_eq_zero.mp hc)
      exact_mod_cast this
    rw [eq_div_iff hlen]
    exact h2

/-- Witness for C9: one call with `tdiff = 1`, default iteration count. -/
theorem get_mlups_first_and_blend_witness :
    ([((1 : ℚ), (none : Option Nat))] ≠ ([] : List (ℚ × Option Nat))) ∧
    (mlups_run 1 1 mlups_init [((1 : ℚ), (none : Option Nat))])._mlups =
      ([((1 : ℚ), (none : Option Nat))].map (mlups_inst 1 1)).sum /
        (([((1 : ℚ), (none : Option Nat))].length : Nat) : ℚ) :=
  ⟨by simp,
    (get_mlups_first_and_blend 1 1).2.2 [((1 : ℚ), (none : Option Nat))] (by simp)⟩

/-! ### Code generation with an external-source override (C7) -/

/-- C7. When `use_src` is configured: if its file is readable, the text
passed to `backend.build` is exactly the override file's contents (the
trace ends in `build content`, and no other text is built), while
rendering still happened first and the `save_src` side effect still
persisted the generated (discarded) source; if the override file is
unreadable, the error is fatal and no build occurs (`_init_code` returns
an error and produces no trace at all). -/
theorem init_code_use_src_override (opts : Options) (rendered : List Char)
    (fs : String → Option (List Char)) (h : opts.use_src ≠ "") :
    (∀ content, fs opts.use_src = some content →
      ∃ evs, _init_code opts rendered fs = .ok evs ∧
        evs.getLast? = some (CodeEv.build content) ∧
        CodeEv.render ∈ evs ∧
        (opts.save_src ≠ "" →
          CodeEv.save opts.save_src
            (if _is_double_precision opts then _convert_to_double rendered
             else rendered) ∈ evs) ∧
        (∀ t, CodeEv.build t ∈ evs → t = content)) ∧
    (fs opts.use_src = none → _init_code opts rendered fs = .error ()) := by
  constructor
  · intro content hc
    unfold _init_code
    rw [if_pos h, hc]
    refine ⟨_, rfl, ?_, ?_, ?_, ?_⟩
    · by_cases hs : opts.save_src ≠ "" <;> by_cases hf : opts.format_src <;>
        simp [hs, hf]
    · by_cases hs : opts.save_src ≠ "" <;> by_cases hf : opts.format_src <;>
        simp [hs, hf]
    · intro hs
      by_cases hf : opts.format_src <;> simp [hs, hf]
    · intro t ht
      by_cases hs : opts.save_src ≠ "" <;> by_cases hf : opts.format_src <;>
        simp [hs, hf] at ht <;> exact ht
  · intro hn
    unfold _init_code
    rw [if_pos h, hn]

/-- Witness for C7: override `"o.cu"` readable with contents `['b']`,
save path `"s.cu"`, rendered text `['a']`. -/
theorem init_code_use_src_override_witness :
    (({ use_src := "o.cu", save_src := "s.cu" } : Options).use_src ≠ "") ∧
    ((fun p => if p = "o.cu" then some ['b'] else none)
        ({ use_src := "o.cu", save_src := "s.cu" } : Options).use_src = some ['b']) ∧
    ∃ evs, _init_code { use_src := "o.cu", save_src := "s.cu" } ['a']
        (fun p => if p = "o.cu" then some ['b'] else none) = .ok evs ∧
      evs.getLast? = some (CodeEv.build ['b']) ∧
      CodeEv.render ∈ evs ∧
      (({ use_src := "o.cu", save_src := "s.cu" } : Options).save_src ≠ "" →
        CodeEv.save ({ use_src := "o.cu", save_src := "s.cu" } : Options).save_src
          (if _is_double_precision { use_src := "o.cu", save_src := "s.cu" }
           then _convert_to_double ['a'] else ['a']) ∈ evs) ∧
      (∀ t, CodeEv.build t ∈ evs → t = ['b']) :=
  ⟨by decide, by simp,
    (init_code_use_src_override { use_src := "o.cu", save_src := "s.cu" } ['a']
      (fun p => if p = "o.cu" then some ['b'] else none) (by decide)).1 ['b'] (by simp)⟩

/-! ### The precision-widening transform (C5, C6)

Supporting theory for `matchLit` / `regexSub` / `replaceFD`. -/

section TakeDropWhile

variable {alpha : Type} {p : alpha → Bool}

lemma takeWhile_append_all {l : List alpha} (r : List alpha)
    (hl : ∀ a ∈ l, p a = true) :
    (l ++ r).takeWhile p = l ++ r.takeWhile p := by
  induction l with
  | nil => simp
  | cons a t ih =>
    have ha : p a = true := hl a (List.mem_cons_self a t)
    simp only [List.cons_append, List.takeWhile_cons, ha, if_true]
    rw [ih fun b hb => hl b (List.mem_cons_of_mem a hb)]

lemma dropWhile_append_all {l : List alpha} (r : List alpha)
    (hl : ∀ a ∈ l, p a = true) :
    (l ++ r).dropWhile p = r.dropWhile p := by
  induction l with
  | nil => simp
  | cons a t ih =>
    have ha : p a = true := hl a (List.mem_cons_self a t)
    simp only [List.cons_append, List.dropWhile_cons, ha, if_true]
    exact ih fun b hb => hl b (List.mem_cons_of_mem a hb)

lemma dropWhile_head_false {l : List alpha} {b : alpha} {r : List alpha}
    (h : l.dropWhile p = b :: r) : p b = false := by
  induction l with
  | nil => simp at h
  | cons a t ih =>
    rw [List.dropWhile_cons] at h
    split at h
    · exact ih h
    · obtain ⟨rfl, -⟩ := List.cons.injEq .. ▸ h
      simp_all

lemma dropWhile_append_stop {l : List alpha} {b : alpha} {r : List alpha} (y : List alpha)
    (h : l.dropWhile p = b :: r) :
    (l ++ y).dropWhile p = b :: (r ++ y) := by
  have hsplit : l = l.takeWhile p ++ (b :: r) := by
    rw [← h, List.takeWhile_append_dropWhile]
  have hb : p b = false := dropWhile_head_false h
  calc (l ++ y).dropWhile p
      = ((l.takeWhile p ++ (b :: r)) ++ y).dropWhile p := by rw [← hsplit]
    _ = (l.takeWhile p ++ (b :: (r ++ y))).dropWhile p := by simp
    _ = (b :: (r ++ y)).dropWhile p := by
        exact dropWhile_append_all _ fun a ha => List.mem_takeWhile_imp ha
    _ = b :: (r ++ y) := by rw [List.dropWhile_cons_of_neg (by simp [hb])]

lemma takeWhile_append_stop {l : List alpha} {b : alpha} {r : List alpha} (y : List alpha)
    (h : l.dropWhile p = b :: r) :
    (l ++ y).takeWhile p = l.takeWhile p := by
  have hsplit : l = l.takeWhile p ++ (b :: r) := by
    rw [← h, List.takeWhile_append_dropWhile]
  have hb : p b = false := dropWhile_head_false h
  calc (l ++ y).takeWhile p
      = ((l.takeWhile p ++ (b :: r)) ++ y).takeWhile p := by rw [← hsplit]
    _ = (l.takeWhile p ++ (b :: (r ++ y))).takeWhile p := by simp
    _ = l.takeWhile p ++ (b :: (r ++ y)).takeWhile p := by
        exact takeWhile_append_all _ fun a ha => List.mem_takeWhile_imp ha
    _ = l.takeWhile p := by
        rw [List.takeWhile_cons_of_neg (by simp [hb])]
        simp

lemma dropWhile_mem_head {l : List alpha} {b : alpha} {r : List alpha}
    (h : l.dropWhile p = b :: r) : b ∈ l := by
  have hsplit : l = l.takeWhile p ++ (b :: r) := by
    rw [← h, List.takeWhile_append_dropWhile]
  rw [hsplit]
  exact List.mem_append_right _ (List.mem_cons_self b r)

lemma dropWhile_mem_tail {l : List alpha} {b : alpha} {r : List alpha}
    (h : l.dropWhile p = b :: r) : ∀ a ∈ r, a ∈ l := by
  intro a ha
  have hsplit : l = l.takeWhile p ++ (b :: r) := by
    rw [← h, List.takeWhile_append_dropWhile]
  rw [hsplit]
  exact List.mem_append_right _ (List.mem_cons_of_mem b ha)

end TakeDropWhile

lemma digit_identDot {a : Char} (h : isDigitC a = true) : isIdentDot a = true := by
  simp [isIdentDot, h]

lemma identDot_false_not_digit {a : Char} (h : isIdentDot a = false) :
    isDigitC a = false := by
  cases hd : isDigitC a
  · rfl
  · rw [digit_identDot hd] at h
    exact absurd h (by simp)

lemma matchLit_none_of_dropWhile_nil {s : List Char}
    (h : s.dropWhile isDigitC = []) : matchLit s = none := by
  simp only [matchLit, h]

lemma matchLit_none_of_head_ne_dot {s : List Char} {b : Char} {r : List Char}
    (h : s.dropWhile isDigitC = b :: r) (hb : b ≠ '.') : matchLit s = none := by
  simp only [matchLit, h]
  split
  · next heq =>
      obtain ⟨hb', -⟩ := List.cons.injEq .. ▸ heq
      exact absurd hb' hb
  · rfl

lemma matchLit_none_of_takeWhile_nil {s : List Char}
    (h : s.takeWhile isDigitC = []) : matchLit s = none := by
  simp only [matchLit, h]
  split
  · simp
  · rfl

lemma matchLit_none_of_no_f {s r2 : List Char}
    (h : s.dropWhile isDigitC = '.' :: r2)
    (h2 : r2.dropWhile isDigitC = []) : matchLit s = none := by
  simp only [matchLit, h, h2]
  split <;> rfl

lemma matchLit_none_of_head2_ne_f {s r2 : List Char} {b : Char} {r3 : List Char}
    (h : s.dropWhile isDigitC = '.' :: r2)
    (h2 : r2.dropWhile isDigitC = b :: r3) (hb : b ≠ 'f') : matchLit s = none := by
  simp only [matchLit, h, h2]
  split
  · rfl
  · split
    · next heq =>
        obtain ⟨hb', -⟩ := List.cons.injEq .. ▸ heq
        exact absurd hb' hb
    · rfl

lemma matchLit_none_of_f_last {s r2 : List Char}
    (h : s.dropWhile isDigitC = '.' :: r2)
    (h2 : r2.dropWhile isDigitC = ['f']) : matchLit s = none := by
  simp only [matchLit, h, h2]
  split <;> rfl

lemma matchLit_none_of_identDot {s r2 : List Char} {c : Char} {r4 : List Char}
    (h : s.dropWhile isDigitC = '.' :: r2)
    (h2 : r2.dropWhile isDigitC = 'f' :: c :: r4)
    (hc : isIdentDot c = true) : matchLit s = none := by
  simp only [matchLit, h, h2, hc, if_true]
  split <;> rfl

lemma matchLit_app {d1 d2 : List Char} {c : Char} (z : List Char)
    (h1 : d1 ≠ []) (hd1 : ∀ a ∈ d1, isDigitC a = true)
    (hd2 : ∀ a ∈ d2, isDigitC a = true) (hc : isIdentDot c = false) :
    matchLit (d1 ++ '.' :: (d2 ++ 'f' :: c :: z)) =
      some (d1 ++ '.' :: (d2 ++ [c]), z) := by
  have hdotd : isDigitC '.' = false := by decide
  have hfd : isDigitC 'f' = false := by decide
  have htw : (d1 ++ '.' :: (d2 ++ 'f' :: c :: z)).takeWhile isDigitC = d1 := by
    rw [takeWhile_append_all _ hd1, List.takeWhile_cons_of_neg (by simp [hdotd])]
    simp
  have hdw : (d1 ++ '.' :: (d2 ++ 'f' :: c :: z)).dropWhile isDigitC =
      '.' :: (d2 ++ 'f' :: c :: z) := by
    rw [dropWhile_append_all _ hd1, List.dropWhile_cons_of_neg (by simp [hdotd])]
  have htw2 : (d2 ++ 'f' :: c :: z).takeWhile isDigitC = d2 := by
    rw [takeWhile_append_all _ hd2, List.takeWhile_cons_of_neg (by simp [hfd])]
    simp
  have hdw2 : (d2 ++ 'f' :: c :: z).dropWhile isDigitC = 'f' :: c :: z := by
    rw [dropWhile_append_all _ hd2, List.dropWhile_cons_of_neg (by simp [hfd])]
  have hne : d1.isEmpty = false := by
    cases d1
    · exact absurd rfl h1
    · rfl
  simp only [matchLit, htw, hdw, htw2, hdw2, hc, hne]
  simp

lemma matchLit_some_spec {s rep rest : List Char}
    (h : matchLit s = some (rep, rest)) :
    ∃ d1 d2 c, s = d1 ++ '.' :: (d2 ++ 'f' :: c :: rest) ∧
      rep = d1 ++ '.' :: (d2 ++ [c]) ∧ d1 ≠ [] ∧
      (∀ a ∈ d1, isDigitC a = true) ∧ (∀ a ∈ d2, isDigitC a = true) ∧
      isIdentDot c = false := by
  simp only [matchLit] at h
  split at h
  case h_2 => simp at h
  case h_1 r2 heq =>
    split at h
    · simp at h
    · split at h
      case h_2 => simp at h
      case h_1 c r4 heq2 =>
        split at h
        · simp at h
        · next hcid =>
          simp only [Option.some.injEq, Prod.mk.injEq] at h
          obtain ⟨hrep, hrest⟩ := h
          subst hrest
          refine ⟨s.takeWhile isDigitC, r2.takeWhile isDigitC, c, ?_, hrep.symm,
            ?_, ?_, ?_, ?_⟩
          · conv_lhs => rw [← List.takeWhile_append_dropWhile (p := isDigitC) (l := s)]
            rw [heq]
            congr 1
            congr 1
            conv_lhs => rw [← List.takeWhile_append_dropWhile (p := isDigitC) (l := r2)]
            rw [heq2]
          · intro hemp
            have hne := ‹¬(List.takeWhile isDigitC s).isEmpty = true›
            rw [hemp] at hne
            exact hne rfl
          · intro a ha; exact List.mem_takeWhile_imp ha
          · intro a ha; exact List.mem_takeWhile_imp ha
          · simpa using hcid

lemma matchLit_nil : matchLit [] = none := by
  simp [matchLit]

lemma regexSub_nil : regexSub [] = [] := by
  rw [regexSub]

lemma regexSub_cons_some {a : Char} {t rep rest : List Char}
    (h : matchLit (a :: t) = some (rep, rest)) :
    regexSub (a :: t) = rep ++ regexSub rest := by
  rw [regexSub]
  split
  · next rep' rest' heq =>
      rw [h] at heq
      simp only [Option.some.injEq, Prod.mk.injEq] at heq
      obtain ⟨h1, h2⟩ := heq
      rw [h1, h2]
  · next heq =>
      rw [h] at heq
      simp at heq

lemma regexSub_cons_none {a : Char} {t : List Char}
    (h : matchLit (a :: t) = none) :
    regexSub (a :: t) = a :: regexSub t := by
  rw [regexSub]
  split
  · next rep' rest' heq =>
      rw [h] at heq
      simp at heq
  · rfl

lemma replaceFD_nil : replaceFD [] = [] := by
  rw [replaceFD]

lemma replaceFD_cons_pos {a : Char} {t : List Char}
    (h : (a :: t).take 5 = floatChars) :
    replaceFD (a :: t) = doubleChars ++ replaceFD ((a :: t).drop 5) := by
  rw [replaceFD]
  rw [if_pos h]

lemma replaceFD_cons_neg {a : Char} {t : List Char}
    (h : ¬ (a :: t).take 5 = floatChars) :
    replaceFD (a :: t) = a :: replaceFD t := by
  rw [replaceFD]
  rw [if_neg h]

lemma dot_of_nondigit {x : List Char} {b : Char} {q1 : List Char}
    (hx : ∀ a ∈ x, isDigitC a = true ∨ a = '.')
    (h : x.dropWhile isDigitC = b :: q1) : b = '.' := by
  have hb := dropWhile_head_false h
  rcases hx b (dropWhile_mem_head h) with hd | hd
  · rw [hd] at hb
    exact absurd hb (by simp)
  · exact hd

lemma matchLit_block {x : List Char} {c : Char} (z : List Char)
    (hx : ∀ a ∈ x, isDigitC a = true ∨ a = '.')
    (hc : isIdentDot c = false) :
    matchLit (x ++ c :: z) = none := by
  have hcd : isDigitC c = false := identDot_false_not_digit hc
  have hcdot : c ≠ '.' := by
    intro hh
    rw [hh] at hc
    exact absurd hc (by decide)
  have hcf : c ≠ 'f' := by
    intro hh
    rw [hh] at hc
    exact absurd hc (by decide)
  rcases hq : x.dropWhile isDigitC with _ | ⟨b, q1⟩
  · have hall := List.dropWhile_eq_nil_iff.mp hq
    have hdw : (x ++ c :: z).dropWhile isDigitC = c :: z := by
      rw [dropWhile_append_all _ hall, List.dropWhile_cons_of_neg (by simp [hcd])]
    exact matchLit_none_of_head_ne_dot hdw hcdot
  · have hbdot : b = '.' := dot_of_nondigit hx hq
    subst hbdot
    have hdw : (x ++ c :: z).dropWhile isDigitC = '.' :: (q1 ++ c :: z) :=
      dropWhile_append_stop _ hq
    have hq1 : ∀ a ∈ q1, isDigitC a = true ∨ a = '.' :=
      fun a ha => hx a (dropWhile_mem_tail hq a ha)
    rcases hq2 : q1.dropWhile isDigitC with _ | ⟨b2, q2⟩
    · have hall := List.dropWhile_eq_nil_iff.mp hq2
      have hdw2 : (q1 ++ c :: z).dropWhile isDigitC = c :: z := by
        rw [dropWhile_append_all _ hall, List.dropWhile_cons_of_neg (by simp [hcd])]
      exact matchLit_none_of_head2_ne_f hdw hdw2 hcf
    · have hb2 : b2 = '.' := dot_of_nondigit hq1 hq2
      have hdw2 : (q1 ++ c :: z).dropWhile isDigitC = b2 :: (q2 ++ c :: z) :=
        dropWhile_append_stop _ hq2
      exact matchLit_none_of_head2_ne_f hdw hdw2 (by rw [hb2]; decide)

lemma matchLit_block_f {x : List Char} {cp : Char} (z : List Char)
    (hx : ∀ a ∈ x, isDigitC a = true ∨ a = '.')
    (hc : isIdentDot cp = true) :
    matchLit (x ++ 'f' :: cp :: z) = none := by
  have hfd : isDigitC 'f' = false := by decide
  rcases hq : x.dropWhile isDigitC with _ | ⟨b, q1⟩
  · have hall := List.dropWhile_eq_nil_iff.mp hq
    have hdw : (x ++ 'f' :: cp :: z).dropWhile isDigitC = 'f' :: cp :: z := by
      rw [dropWhile_append_all _ hall, List.dropWhile_cons_of_neg (by simp [hfd])]
    exact matchLit_none_of_head_ne_dot hdw (by decide)
  · have hbdot : b = '.' := dot_of_nondigit hx hq
    subst hbdot
    have hdw : (x ++ 'f' :: cp :: z).dropWhile isDigitC = '.' :: (q1 ++ 'f' :: cp :: z) :=
      dropWhile_append_stop _ hq
    have hq1 : ∀ a ∈ q1, isDigitC a = true ∨ a = '.' :=
      fun a ha => hx a (dropWhile_mem_tail hq a ha)
    rcases hq2 : q1.dropWhile isDigitC with _ | ⟨b2, q2⟩
    · have hall := List.dropWhile_eq_nil_iff.mp hq2
      have hdw2 : (q1 ++ 'f' :: cp :: z).dropWhile isDigitC = 'f' :: cp :: z := by
        rw [dropWhile_append_all _ hall, List.dropWhile_cons_of_neg (by simp [hfd])]
      exact matchLit_none_of_identDot hdw hdw2 hc
    · have hb2 : b2 = '.' := dot_of_nondigit hq1 hq2
      have hdw2 : (q1 ++ 'f' :: cp :: z).dropWhile isDigitC = b2 :: (q2 ++ 'f' :: cp :: z) :=
        dropWhile_append_stop _ hq2
      exact matchLit_none_of_head2_ne_f hdw hdw2 (by rw [hb2]; decide)

lemma matchLit_block_end {x : List Char}
    (hx : ∀ a ∈ x, isDigitC a = true ∨ a = '.') :
    matchLit (x ++ ['f']) = none := by
  have hfd : isDigitC 'f' = false := by decide
  rcases hq : x.dropWhile isDigitC with _ | ⟨b, q1⟩
  · have hall := List.dropWhile_eq_nil_iff.mp hq
    have hdw : (x ++ ['f']).dropWhile isDigitC = ['f'] := by
      rw [dropWhile_append_all _ hall, List.dropWhile_cons_of_neg (by simp [hfd])]
    exact matchLit_none_of_head_ne_dot hdw (by decide)
  · have hbdot : b = '.' := dot_of_nondigit hx hq
    subst hbdot
    have hdw : (x ++ ['f']).dropWhile isDigitC = '.' :: (q1 ++ ['f']) :=
      dropWhile_append_stop _ hq
    have hq1 : ∀ a ∈ q1, isDigitC a = true ∨ a = '.' :=
      fun a ha => hx a (dropWhile_mem_tail hq a ha)
    rcases hq2 : q1.dropWhile isDigitC with _ | ⟨b2, q2⟩
    · have hall := List.dropWhile_eq_nil_iff.mp hq2
      have hdw2 : (q1 ++ ['f']).dropWhile isDigitC = ['f'] := by
        rw [dropWhile_append_all _ hall, List.dropWhile_cons_of_neg (by simp [hfd])]
      exact matchLit_none_of_f_last hdw hdw2
    · have hb2 : b2 = '.' := dot_of_nondigit hq1 hq2
      have hdw2 : (q1 ++ ['f']).dropWhile isDigitC = b2 :: (q2 ++ ['f']) :=
        dropWhile_append_stop _ hq2
      exact matchLit_none_of_head2_ne_f hdw hdw2 (by rw [hb2]; decide)

lemma matchLit_some_of {s r2 : List Char} {c2 : Char} {r4 : List Char}
    (h : s.dropWhile isDigitC = '.' :: r2)
    (hne : s.takeWhile isDigitC ≠ [])
    (h2 : r2.dropWhile isDigitC = 'f' :: c2 :: r4)
    (hcid : isIdentDot c2 = false) :
    matchLit s = some (s.takeWhile isDigitC ++ '.' :: (r2.takeWhile isDigitC ++ [c2]), r4) := by
  have hemp : (s.takeWhile isDigitC).isEmpty = false := by
    rcases hq : s.takeWhile isDigitC with _ | _
    · exact absurd hq hne
    · rfl
  simp only [matchLit, h, h2, hcid, hemp]
  simp

lemma matchLit_none_sub {pre d1 d2 : List Char} {c : Char} {r : List Char} (Z : List Char)
    (hd1 : d1 ≠ []) (hdig1 : ∀ a ∈ d1, isDigitC a = true)
    (hdig2 : ∀ a ∈ d2, isDigitC a = true) (hc : isIdentDot c = false)
    (hnone : matchLit (pre ++ (d1 ++ '.' :: (d2 ++ 'f' :: c :: r))) = none) :
    matchLit (pre ++ (d1 ++ '.' :: (d2 ++ c :: Z))) = none := by
  have hcd : isDigitC c = false := identDot_false_not_digit hc
  have hcf : c ≠ 'f' := by
    intro hh
    rw [hh] at hc
    exact absurd hc (by decide)
  have hdotd : isDigitC '.' = false := by decide
  have hdwB : (d1 ++ '.' :: (d2 ++ c :: Z)).dropWhile isDigitC = '.' :: (d2 ++ c :: Z) := by
    rw [dropWhile_append_all _ hdig1, List.dropWhile_cons_of_neg (by simp [hdotd])]
  rcases hq : pre.dropWhile isDigitC with _ | ⟨b, q1⟩
  · have hall := List.dropWhile_eq_nil_iff.mp hq
    have hdw : (pre ++ (d1 ++ '.' :: (d2 ++ c :: Z))).dropWhile isDigitC =
        '.' :: (d2 ++ c :: Z) := by
      rw [dropWhile_append_all _ hall, hdwB]
    have hdw2 : (d2 ++ c :: Z).dropWhile isDigitC = c :: Z := by
      rw [dropWhile_append_all _ hdig2, List.dropWhile_cons_of_neg (by simp [hcd])]
    exact matchLit_none_of_head2_ne_f hdw hdw2 hcf
  · by_cases hb : b = '.'
    case neg => exact matchLit_none_of_head_ne_dot (dropWhile_append_stop _ hq) hb
    case pos =>
      subst hb
      have hdw : (pre ++ (d1 ++ '.' :: (d2 ++ c :: Z))).dropWhile isDigitC
          = '.' :: (q1 ++ (d1 ++ '.' :: (d2 ++ c :: Z))) := dropWhile_append_stop _ hq
      by_cases htwp : pre.takeWhile isDigitC = []
      case pos =>
        apply matchLit_none_of_takeWhile_nil
        rw [takeWhile_append_stop _ hq, htwp]
      case neg =>
        rcases hq2 : q1.dropWhile isDigitC with _ | ⟨b2, q2⟩
        · have hall := List.dropWhile_eq_nil_iff.mp hq2
          have hdw2 : (q1 ++ (d1 ++ '.' :: (d2 ++ c :: Z))).dropWhile isDigitC =
              '.' :: (d2 ++ c :: Z) := by
            rw [dropWhile_append_all _ hall, hdwB]
          exact matchLit_none_of_head2_ne_f hdw hdw2 (by decide)
        · by_cases hb2 : b2 = 'f'
          case neg =>
            exact matchLit_none_of_head2_ne_f hdw (dropWhile_append_stop _ hq2) hb2
          case pos =>
            subst hb2
            rcases q2 with _ | ⟨c2, q3⟩
            · obtain ⟨e, d1t, rfl⟩ : ∃ e d1t, d1 = e :: d1t := by
                rcases d1 with _ | ⟨e, d1t⟩
                · exact absurd rfl hd1
                · exact ⟨e, d1t, rfl⟩
              have hdw2 : (q1 ++ (e :: d1t ++ '.' :: (d2 ++ c :: Z))).dropWhile isDigitC
                  = 'f' :: (e :: (d1t ++ '.' :: (d2 ++ c :: Z))) := by
                have h3 := dropWhile_append_stop (p := isDigitC)
                  (e :: d1t ++ '.' :: (d2 ++ c :: Z)) hq2
                simpa using h3
              have he : isIdentDot e = true :=
                digit_identDot (hdig1 e (List.mem_cons_self e d1t))
              exact matchLit_none_of_identDot hdw hdw2 he
            · by_cases hcid : isIdentDot c2 = true
              case pos =>
                have hdw2 : (q1 ++ (d1 ++ '.' :: (d2 ++ c :: Z))).dropWhile isDigitC
                    = 'f' :: c2 :: (q3 ++ (d1 ++ '.' :: (d2 ++ c :: Z))) := by
                  have h3 := dropWhile_append_stop (p := isDigitC)
                    (d1 ++ '.' :: (d2 ++ c :: Z)) hq2
                  simpa using h3
                exact matchLit_none_of_identDot hdw hdw2 hcid
              case neg =>
                exfalso
                have hdwa : (pre ++ (d1 ++ '.' :: (d2 ++ 'f' :: c :: r))).dropWhile isDigitC
                    = '.' :: (q1 ++ (d1 ++ '.' :: (d2 ++ 'f' :: c :: r))) :=
                  dropWhile_append_stop _ hq
                have htwa : (pre ++ (d1 ++ '.' :: (d2 ++ 'f' :: c :: r))).takeWhile isDigitC
                    = pre.takeWhile isDigitC := takeWhile_append_stop _ hq
                have hdw2a : (q1 ++ (d1 ++ '.' :: (d2 ++ 'f' :: c :: r))).dropWhile isDigitC
                    = 'f' :: c2 :: (q3 ++ (d1 ++ '.' :: (d2 ++ 'f' :: c :: r))) := by
                  have h3 := dropWhile_append_stop (p := isDigitC)
                    (d1 ++ '.' :: (d2 ++ 'f' :: c :: r)) hq2
                  simpa using h3
                have hsome := matchLit_some_of hdwa (by rw [htwa]; exact htwp) hdw2a
                  (by simpa using hcid)
                rw [hnone] at hsome
                exact Option.noConfusion hsome

lemma regexSub_go_main :
    ∀ N (s : List Char), s.length ≤ N →
      ((∀ pre, matchLit (pre ++ s) = none → matchLit (pre ++ regexSub s) = none) ∧
       (∀ n, matchLit ((regexSub s).drop n) = none)) := by
  intro N
  induction N with
  | zero =>
    intro s hlen
    have hz : s = [] := List.length_eq_zero.mp (Nat.le_zero.mp hlen)
    subst hz
    rw [regexSub_nil]
    exact ⟨fun pre h => h, fun n => by rw [List.drop_nil]; exact matchLit_nil⟩
  | succ N ih =>
    intro s hlen
    rcases s with _ | ⟨a, t⟩
    · rw [regexSub_nil]
      exact ⟨fun pre h => h, fun n => by rw [List.drop_nil]; exact matchLit_nil⟩
    · rcases hm : matchLit (a :: t) with _ | ⟨rep, rest⟩
      · rw [regexSub_cons_none hm]
        have hlt : t.length ≤ N := by
          simp only [List.length_cons] at hlen
          omega
        obtain ⟨ihc1, ihc2⟩ := ih t hlt
        constructor
        · intro pre hpre
          have h4 := ihc1 (pre ++ [a]) (by simpa using hpre)
          simpa using h4
        · intro n
          rcases n with _ | n
          · have h4 := ihc1 [a] (by simpa using hm)
            simpa using h4
          · simpa using ihc2 n
      · obtain ⟨d1, d2, c, hs, hrep, hd1, hdig1, hdig2, hcid⟩ := matchLit_some_spec hm
        rw [regexSub_cons_some hm]
        have hrest : rest.length ≤ N := by
          have h4 := matchLit_some_len hm
          simp only [List.length_cons] at h4 hlen
          omega
        obtain ⟨ihc1, ihc2⟩ := ih rest hrest
        have hWd : ∀ x ∈ d1 ++ '.' :: d2, isDigitC x = true ∨ x = '.' := by
          intro x hx
          rcases List.mem_append.mp hx with h | h
          · exact Or.inl (hdig1 x h)
          · rcases List.mem_cons.mp h with h | h
            · exact Or.inr h
            · exact Or.inl (hdig2 x h)
        constructor
        · intro pre hpre
          rw [hs] at hpre
          have h4 := matchLit_none_sub (regexSub rest) hd1 hdig1 hdig2 hcid hpre
          rw [hrep]
          have hassoc : pre ++ ((d1 ++ '.' :: (d2 ++ [c])) ++ regexSub rest) =
              pre ++ (d1 ++ '.' :: (d2 ++ c :: regexSub rest)) := by
            simp
          rw [hassoc]
          exact h4
        · intro n
          have hform : rep ++ regexSub rest = (d1 ++ '.' :: d2) ++ c :: regexSub rest := by
            rw [hrep]
            simp
          rw [hform]
          by_cases hn : n ≤ (d1 ++ '.' :: d2).length
          · rw [List.drop_append_eq_append_drop]
            have h0 : n - (d1 ++ '.' :: d2).length = 0 := by omega
            rw [h0, List.drop_zero]
            refine matchLit_block _ ?_ hcid
            intro x hx
            exact hWd x (List.drop_subset _ _ hx)
          · rw [List.drop_append_eq_append_drop]
            have h0 : (d1 ++ '.' :: d2).drop n = [] :=
              List.drop_of_length_le (by omega)
            rw [h0, List.nil_append]
            have h5 : n - (d1 ++ '.' :: d2).length =
                (n - (d1 ++ '.' :: d2).length - 1) + 1 := by omega
            rw [h5, List.drop_succ_cons]
            exact ihc2 _

lemma regexSub_no_match (s : List Char) :
    ∀ n, matchLit ((regexSub s).drop n) = none :=
  (regexSub_go_main s.length s (le_refl _)).2

lemma regexSub_of_noMatch :
    ∀ N (t : List Char), t.length ≤ N →
      (∀ n, matchLit (t.drop n) = none) → regexSub t = t := by
  intro N
  induction N with
  | zero =>
    intro t hlen _
    have hz : t = [] := List.length_eq_zero.mp (Nat.le_zero.mp hlen)
    subst hz
    exact regexSub_nil
  | succ N ih =>
    intro t hlen hm
    rcases t with _ | ⟨a, tl⟩
    · exact regexSub_nil
    · have h0 := hm 0
      rw [List.drop_zero] at h0
      rw [regexSub_cons_none h0]
      congr 1
      refine ih tl ?_ fun n => by simpa using hm (n + 1)
      simp only [List.length_cons] at hlen
      omega

lemma regexSub_idem_aux (s : List Char) : regexSub (regexSub s) = regexSub s :=
  regexSub_of_noMatch (regexSub s).length _ (le_refl _) (regexSub_no_match s)

lemma take_eq_of_regexSub_go :
    ∀ N (t : List Char), t.length ≤ N → ∀ w : List Char,
      (∀ a ∈ w, isDigitC a = false ∧ a ≠ '.') →
      (regexSub t).take w.length = w → t.take w.length = w := by
  intro N
  induction N with
  | zero =>
    intro t hlen w _ htake
    have hz : t = [] := List.length_eq_zero.mp (Nat.le_zero.mp hlen)
    subst hz
    rw [regexSub_nil] at htake
    have : w = [] := by
      rcases w with _ | ⟨wh, wt⟩
      · rfl
      · simp at htake
    subst this
    rfl
  | succ N ih =>
    intro t hlen w hw htake
    rcases t with _ | ⟨a, tl⟩
    · rw [regexSub_nil] at htake
      have : w = [] := by
        rcases w with _ | ⟨wh, wt⟩
        · rfl
        · simp at htake
      subst this
      rfl
    · rcases w with _ | ⟨wh, wt⟩
      · rfl
      · rcases hm : matchLit (a :: tl) with _ | ⟨rep, rest⟩
        · rw [regexSub_cons_none hm] at htake
          simp only [List.length_cons, List.take_succ_cons] at htake ⊢
          obtain ⟨h1, h2⟩ := List.cons.injEq .. ▸ htake
          have h3 := ih tl (by simp only [List.length_cons] at hlen; omega) wt
            (fun a ha => hw a (List.mem_cons_of_mem wh ha)) h2
          rw [h1, h3]
        · obtain ⟨d1, d2, c, hs, hrep, hd1, hdig1, hdig2, hcid⟩ := matchLit_some_spec hm
          rw [regexSub_cons_some hm] at htake
          obtain ⟨e, d1t, rfl⟩ : ∃ e d1t, d1 = e :: d1t := by
            rcases d1 with _ | ⟨e, d1t⟩
            · exact absurd rfl hd1
            · exact ⟨e, d1t, rfl⟩
          rw [hrep] at htake
          simp only [List.cons_append, List.length_cons, List.take_succ_cons] at htake
          obtain ⟨h1, -⟩ := List.cons.injEq .. ▸ htake
          have he : isDigitC e = true := hdig1 e (List.mem_cons_self e d1t)
          have := (hw wh (List.mem_cons_self wh wt)).1
          rw [← h1] at this
          rw [he] at this
          exact absurd this (by simp)

lemma take_eq_of_replaceFD_go :
    ∀ N (t : List Char), t.length ≤ N → ∀ w : List Char, 'd' ∉ w →
      (replaceFD t).take w.length = w → t.take w.length = w := by
  intro N
  induction N with
  | zero =>
    intro t hlen w _ htake
    have hz : t = [] := List.length_eq_zero.mp (Nat.le_zero.mp hlen)
    subst hz
    rw [replaceFD_nil] at htake
    have : w = [] := by
      rcases w with _ | ⟨wh, wt⟩
      · rfl
      · simp at htake
    subst this
    rfl
  | succ N ih =>
    intro t hlen w hw htake
    rcases t with _ | ⟨a, tl⟩
    · rw [replaceFD_nil] at htake
      have : w = [] := by
        rcases w with _ | ⟨wh, wt⟩
        · rfl
        · simp at htake
      subst this
      rfl
    · rcases w with _ | ⟨wh, wt⟩
      · rfl
      · by_cases hf : (a :: tl).take 5 = floatChars
        · rw [replaceFD_cons_pos hf] at htake
          simp only [doubleChars, List.cons_append, List.length_cons,
            List.take_succ_cons] at htake
          obtain ⟨h1, -⟩ := List.cons.injEq .. ▸ htake
          exact absurd (h1 ▸ List.mem_cons_self wh wt) hw
        · rw [replaceFD_cons_neg hf] at htake
          simp only [List.length_cons, List.take_succ_cons] at htake ⊢
          obtain ⟨h1, h2⟩ := List.cons.injEq .. ▸ htake
          have h3 := ih tl (by simp only [List.length_cons] at hlen; omega) wt
            (fun hc => hw (List.mem_cons_of_mem wh hc)) h2
          rw [h1, h3]

lemma noFloat_replaceFD_go :
    ∀ N (t : List Char), t.length ≤ N →
      ∀ n, ((replaceFD t).drop n).take 5 ≠ floatChars := by
  intro N
  induction N with
  | zero =>
    intro t hlen n
    have hz : t = [] := List.length_eq_zero.mp (Nat.le_zero.mp hlen)
    subst hz
    rw [replaceFD_nil]
    simp [floatChars]
  | succ N ih =>
    intro t hlen n
    rcases t with _ | ⟨a, tl⟩
    · rw [replaceFD_nil]
      simp [floatChars]
    · by_cases hf : (a :: tl).take 5 = floatChars
      · rw [replaceFD_cons_pos hf]
        by_cases hn : n < 6
        · intro hcon
          rw [List.drop_append_eq_append_drop] at hcon
          interval_cases n <;>
            simp [doubleChars, floatChars, List.take_succ_cons] at hcon
        · rw [List.drop_append_eq_append_drop]
          have h0 : doubleChars.drop n = [] :=
            List.drop_of_length_le (by simp [doubleChars]; omega)
          rw [h0, List.nil_append]
          have hlen2 : ((a :: tl).drop 5).length ≤ N := by
            simp only [List.length_drop, List.length_cons] at hlen ⊢
            omega
          exact ih _ hlen2 _
      · rw [replaceFD_cons_neg hf]
        rcases n with _ | n
        · rw [List.drop_zero]
          intro hcon
          rcases hREP : replaceFD tl with _ | ⟨b1, l1⟩
          · rw [hREP] at hcon
            simp [floatChars] at hcon
          · rw [hREP] at hcon
            have hcon' : a :: (b1 :: l1).take 4 = floatChars := by
              simpa [List.take_succ_cons] using hcon
            simp only [floatChars] at hcon'
            obtain ⟨ha, hloat⟩ := List.cons.injEq .. ▸ hcon'
            have hpre : (replaceFD tl).take (['l', 'o', 'a', 't'] : List Char).length =
                ['l', 'o', 'a', 't'] := by
              rw [hREP]
              exact hloat
            have h3 := take_eq_of_replaceFD_go tl.length tl (le_refl _)
              ['l', 'o', 'a', 't'] (by decide) hpre
            have h3n : List.take 4 tl = ['l', 'o', 'a', 't'] := h3
            apply hf
            rw [show (5 : Nat) = 4 + 1 from rfl, List.take_succ_cons, ha, h3n]
            rfl
        · rw [List.drop_succ_cons]
          exact ih tl (by simp only [List.length_cons] at hlen; omega) n

lemma noFloat_replaceFD (t : List Char) :
    ∀ n, ((replaceFD t).drop n).take 5 ≠ floatChars :=
  noFloat_replaceFD_go t.length t (le_refl _)

lemma noFloat_regexSub_go :
    ∀ N (t : List Char), t.length ≤ N →
      (∀ n, (t.drop n).take 5 ≠ floatChars) →
      ∀ n, ((regexSub t).drop n).take 5 ≠ floatChars := by
  intro N
  induction N with
  | zero =>
    intro t hlen _ n
    have hz : t = [] := List.length_eq_zero.mp (Nat.le_zero.mp hlen)
    subst hz
    rw [regexSub_nil]
    simp [floatChars]
  | succ N ih =>
    intro t hlen hnf n
    rcases t with _ | ⟨a, tl⟩
    · rw [regexSub_nil]
      simp [floatChars]
    · rcases hm : matchLit (a :: tl) with _ | ⟨rep, rest⟩
      · rw [regexSub_cons_none hm]
        rcases n with _ | n
        · rw [List.drop_zero]
          intro hcon
          rcases hREP : regexSub tl with _ | ⟨b1, l1⟩
          · rw [hREP] at hcon
            simp [floatChars] at hcon
          · rw [hREP] at hcon
            have hcon' : a :: (b1 :: l1).take 4 = floatChars := by
              simpa [List.take_succ_cons] using hcon
            simp only [floatChars] at hcon'
            obtain ⟨ha, hloat⟩ := List.cons.injEq .. ▸ hcon'
            have hpre : (regexSub tl).take (['l', 'o', 'a', 't'] : List Char).length =
                ['l', 'o', 'a', 't'] := by
              rw [hREP]
              exact hloat
            have h3 := take_eq_of_regexSub_go tl.length tl (le_refl _)
              ['l', 'o', 'a', 't'] (by decide) hpre
            have h3n : List.take 4 tl = ['l', 'o', 'a', 't'] := h3
            apply hnf 0
            rw [List.drop_zero, show (5 : Nat) = 4 + 1 from rfl,
              List.take_succ_cons, ha, h3n]
            rfl
        · rw [List.drop_succ_cons]
          refine ih tl (by simp only [List.length_cons] at hlen; omega) ?_ n
          intro m
          have := hnf (m + 1)
          rwa [List.drop_succ_cons] at this
      · obtain ⟨d1, d2, c, hs, hrep, hd1, hdig1, hdig2, hcid⟩ := matchLit_some_spec hm
        rw [regexSub_cons_some hm]
        have hcf : c ≠ 'f' := by
          intro hh
          rw [hh] at hcid
          exact absurd hcid (by decide)
        have hrepf : ∀ b ∈ rep, b ≠ 'f' := by
          intro b hb
          rw [hrep] at hb
          rcases List.mem_append.mp hb with h | h
          · intro hbf
            have := hdig1 b h
            rw [hbf] at this
            exact absurd this (by decide)
          · rcases List.mem_cons.mp h with h | h
            · rw [h]
              decide
            · rcases List.mem_append.mp h with h | h
              · intro hbf
                have := hdig2 b h
                rw [hbf] at this
                exact absurd this (by decide)
              · rcases List.mem_singleton.mp h with rfl
                exact hcf
        by_cases hn : n < rep.length
        · intro hcon
          rw [List.drop_append_eq_append_drop] at hcon
          have hz2 : n - rep.length = 0 := by omega
          rw [hz2, List.drop_zero] at hcon
          have hdropn : rep.drop n = rep[n] :: rep.drop (n + 1) :=
            List.drop_eq_getElem_cons hn
          rw [hdropn] at hcon
          have hbf : rep[n] ≠ 'f' := hrepf _ (List.getElem_mem hn)
          rw [List.cons_append] at hcon
          have hcon' : rep[n] :: (rep.drop (n + 1) ++ regexSub rest).take 4 =
              floatChars := by
            simpa [List.take_succ_cons] using hcon
          simp only [floatChars] at hcon'
          obtain ⟨ha, -⟩ := List.cons.injEq .. ▸ hcon'
          exact hbf ha
        · rw [List.drop_append_eq_append_drop]
          have h0 : rep.drop n = [] := List.drop_of_length_le (by omega)
          rw [h0, List.nil_append]
          have hrest : rest.length ≤ N := by
            have h4 := matchLit_some_len hm
            simp only [List.length_cons] at h4 hlen
            omega
          refine ih rest hrest ?_ _
          intro m
          have hX : (d1 ++ '.' :: (d2 ++ ['f', c])) ++ rest =
              d1 ++ '.' :: (d2 ++ 'f' :: c :: rest) := by
            simp
          have hdrop : rest.drop m =
              ((a :: tl).drop ((d1 ++ '.' :: (d2 ++ ['f', c])).length + m)) := by
            rw [hs, ← hX, List.drop_append_eq_append_drop]
            have h5 : (d1 ++ '.' :: (d2 ++ ['f', c])).drop
                ((d1 ++ '.' :: (d2 ++ ['f', c])).length + m) = [] :=
              List.drop_of_length_le (by omega)
            rw [h5, List.nil_append]
            congr 1
            omega
          rw [hdrop]
          exact hnf _

lemma noFloat_regexSub (t : List Char)
    (hnf : ∀ n, (t.drop n).take 5 ≠ floatChars) :
    ∀ n, ((regexSub t).drop n).take 5 ≠ floatChars :=
  noFloat_regexSub_go t.length t (le_refl _) hnf

lemma replaceFD_of_noFloat_go :
    ∀ N (t : List Char), t.length ≤ N →
      (∀ n, (t.drop n).take 5 ≠ floatChars) → replaceFD t = t := by
  intro N
  induction N with
  | zero =>
    intro t hlen _
    have hz : t = [] := List.length_eq_zero.mp (Nat.le_zero.mp hlen)
    subst hz
    exact replaceFD_nil
  | succ N ih =>
    intro t hlen hnf
    rcases t with _ | ⟨a, tl⟩
    · exact replaceFD_nil
    · have hf : ¬ (a :: tl).take 5 = floatChars := by
        have := hnf 0
        rwa [List.drop_zero] at this
      rw [replaceFD_cons_neg hf]
      congr 1
      refine ih tl (by simp only [List.length_cons] at hlen; omega) ?_
      intro m
      have := hnf (m + 1)
      rwa [List.drop_succ_cons] at this

lemma replaceFD_of_noFloat (t : List Char)
    (hnf : ∀ n, (t.drop n).take 5 ≠ floatChars) : replaceFD t = t :=
  replaceFD_of_noFloat_go t.length t (le_refl _) hnf

/-- C6. The double-precision transform is idempotent: applying
`_convert_to_double` to its own output changes nothing. -/
theorem convert_to_double_idem (s : List Char) :
    _convert_to_double (_convert_to_double s) = _convert_to_double s := by
  show regexSub (replaceFD (regexSub (replaceFD s))) = regexSub (replaceFD s)
  rw [replaceFD_of_noFloat _ (noFloat_regexSub _ (noFloat_replaceFD s))]
  exact regexSub_idem_aux _

lemma regexSub_eq_of_match {s rep rest : List Char}
    (h : matchLit s = some (rep, rest)) :
    regexSub s = rep ++ regexSub rest := by
  rcases s with _ | ⟨a, t⟩
  · rw [matchLit_nil] at h
    exact Option.noConfusion h
  · exact regexSub_cons_some h

lemma regexSub_emit :
    ∀ (l z : List Char),
      (∀ n, n < l.length → matchLit (l.drop n ++ z) = none) →
      regexSub (l ++ z) = l ++ regexSub z := by
  intro l
  induction l with
  | nil => intro z _; simp
  | cons a t ih =>
    intro z h
    have h0 : matchLit (a :: (t ++ z)) = none := by
      have h1 := h 0 (by simp)
      simpa using h1
    rw [List.cons_append, regexSub_cons_none h0]
    congr 1
    refine ih z fun n hn => ?_
    have h1 := h (n + 1) (by simp only [List.length_cons]; omega)
    simpa using h1

lemma replaceFD_emit :
    ∀ (l z : List Char),
      (∀ n, n < l.length → ¬ ((l.drop n ++ z).take 5 = floatChars)) →
      replaceFD (l ++ z) = l ++ replaceFD z := by
  intro l
  induction l with
  | nil => intro z _; simp
  | cons a t ih =>
    intro z h
    have h0 : ¬ ((a :: (t ++ z)).take 5 = floatChars) := by
      have h1 := h 0 (by simp)
      simpa using h1
    rw [List.cons_append, replaceFD_cons_neg h0]
    congr 1
    refine ih z fun n hn => ?_
    have h1 := h (n + 1) (by simp only [List.length_cons]; omega)
    simpa using h1

lemma regexSub_skip_identDot (d1 d2 : List Char) (cp : Char) (z : List Char)
    (hdig1 : ∀ a ∈ d1, isDigitC a = true) (hdig2 : ∀ a ∈ d2, isDigitC a = true)
    (hcp : isIdentDot cp = true) :
    regexSub (d1 ++ '.' :: (d2 ++ 'f' :: cp :: z)) =
      (d1 ++ '.' :: (d2 ++ ['f'])) ++ regexSub (cp :: z) := by
  have hW : ∀ x ∈ d1 ++ '.' :: d2, isDigitC x = true ∨ x = '.' := by
    intro x hx
    rcases List.mem_append.mp hx with h | h
    · exact Or.inl (hdig1 x h)
    · rcases List.mem_cons.mp h with h | h
      · exact Or.inr h
      · exact Or.inl (hdig2 x h)
  have hassoc : (d1 ++ '.' :: (d2 ++ ['f'])) ++ (cp :: z) =
      d1 ++ '.' :: (d2 ++ 'f' :: cp :: z) := by simp
  rw [← hassoc]
  refine regexSub_emit _ _ fun n hn => ?_
  have hl : d1 ++ '.' :: (d2 ++ ['f']) = (d1 ++ '.' :: d2) ++ ['f'] := by simp
  rw [hl, List.drop_append_eq_append_drop]
  have hn' : n ≤ (d1 ++ '.' :: d2).length := by
    rw [hl, List.length_append] at hn
    simp only [List.length_singleton] at hn
    omega
  have h0 : n - (d1 ++ '.' :: d2).length = 0 := by omega
  rw [h0, List.drop_zero, List.append_assoc]
  exact matchLit_block_f _ (fun x hx => hW x (List.drop_subset _ _ hx)) hcp

lemma regexSub_skip_end (d1 d2 : List Char)
    (hdig1 : ∀ a ∈ d1, isDigitC a = true) (hdig2 : ∀ a ∈ d2, isDigitC a = true) :
    regexSub (d1 ++ '.' :: (d2 ++ ['f'])) = d1 ++ '.' :: (d2 ++ ['f']) := by
  have hW : ∀ x ∈ d1 ++ '.' :: d2, isDigitC x = true ∨ x = '.' := by
    intro x hx
    rcases List.mem_append.mp hx with h | h
    · exact Or.inl (hdig1 x h)
    · rcases List.mem_cons.mp h with h | h
      · exact Or.inr h
      · exact Or.inl (hdig2 x h)
  have h1 := regexSub_emit (d1 ++ '.' :: (d2 ++ ['f'])) [] ?_
  · simpa [regexSub_nil] using h1
  · intro n hn
    have hl : d1 ++ '.' :: (d2 ++ ['f']) = (d1 ++ '.' :: d2) ++ ['f'] := by simp
    rw [List.append_nil, hl, List.drop_append_eq_append_drop]
    have hn' : n ≤ (d1 ++ '.' :: d2).length := by
      rw [hl, List.length_append] at hn
      simp only [List.length_singleton] at hn
      omega
    have h0 : n - (d1 ++ '.' :: d2).length = 0 := by omega
    rw [h0, List.drop_zero]
    exact matchLit_block_end fun x hx => hW x (List.drop_subset _ _ hx)

lemma take5_ne_float_of_head {b : Char} (X : List Char) (hb : b ≠ 'f') :
    ¬ ((b :: X).take 5 = floatChars) := by
  intro hcon
  have h1 : b :: X.take 4 = floatChars := by
    simpa [List.take_succ_cons] using hcon
  simp only [floatChars] at h1
  obtain ⟨h2, -⟩ := List.cons.injEq .. ▸ h1
  exact hb h2

lemma replaceFD_skip_literal (d1 d2 : List Char) (c : Char) (z : List Char)
    (hdig1 : ∀ a ∈ d1, isDigitC a = true) (hdig2 : ∀ a ∈ d2, isDigitC a = true)
    (hc : isIdentDot c = false) :
    replaceFD (d1 ++ '.' :: (d2 ++ 'f' :: c :: z)) =
      (d1 ++ '.' :: (d2 ++ ['f', c])) ++ replaceFD z := by
  have hcl : c ≠ 'l' := by
    intro hh
    rw [hh] at hc
    exact absurd hc (by decide)
  have hcf : c ≠ 'f' := by
    intro hh
    rw [hh] at hc
    exact absurd hc (by decide)
  have hassoc : (d1 ++ '.' :: (d2 ++ ['f', c])) ++ z =
      d1 ++ '.' :: (d2 ++ 'f' :: c :: z) := by simp
  rw [← hassoc]
  refine replaceFD_emit _ _ fun n hn => ?_
  have hl : d1 ++ '.' :: (d2 ++ ['f', c]) = (d1 ++ '.' :: d2) ++ ['f', c] := by simp
  rw [hl, List.drop_append_eq_append_drop]
  by_cases hn' : n ≤ (d1 ++ '.' :: d2).length
  · have h0 : n - (d1 ++ '.' :: d2).length = 0 := by omega
    rw [h0, List.drop_zero]
    rcases hdr : (d1 ++ '.' :: d2).drop n with _ | ⟨b, ws⟩
    · rw [List.nil_append]
      intro hcon
      have h1 : 'f' :: c :: z.take 3 = floatChars := by
        simpa [List.take_succ_cons] using hcon
      simp only [floatChars] at h1
      obtain ⟨-, h2⟩ := List.cons.injEq .. ▸ h1
      obtain ⟨h3, -⟩ := List.cons.injEq .. ▸ h2
      exact hcl h3
    · have hbW : b ∈ d1 ++ '.' :: d2 := List.drop_subset _ _ (hdr ▸ List.mem_cons_self b ws)
      have hbf : b ≠ 'f' := by
        intro hbf
        rcases List.mem_append.mp hbW with h | h
        · have := hdig1 b h
          rw [hbf] at this
          exact absurd this (by decide)
        · rcases List.mem_cons.mp h with h | h
          · rw [h] at hbf
            exact absurd hbf (by decide)
          · have := hdig2 b h
            rw [hbf] at this
            exact absurd this (by decide)
      rw [List.cons_append]
      exact take5_ne_float_of_head _ hbf
  · have h0 : (d1 ++ '.' :: d2).drop n = [] := List.drop_of_length_le (by omega)
    rw [h0, List.nil_append]
    have hone : n - (d1 ++ '.' :: d2).length = 1 := by
      rw [hl, List.length_append] at hn
      simp only [List.length_cons, List.length_nil] at hn
      omega
    rw [hone]
    show ¬ (([c] ++ z).take 5 = floatChars)
    rw [List.cons_append]
    exact take5_ne_float_of_head _ hcf

/-- C5 (amended). The transform widens exactly the float literals of shape
`[0-9]+ '.' [0-9]* 'f'` that are followed by one character that is neither
alphanumeric nor a dot: (1) such a literal has its `'f'` suffix removed
(and scanning continues after the delimiter); (2) a literal followed by an
identifier character or a dot is left unmodified by the substitution pass;
(3) a literal at the very end of the input is left unmodified.  (The
`float` to `double` replacement runs first; see `_convert_to_double`.) -/
theorem convert_to_double_literal_rules (d1 d2 : List Char) (c cp : Char)
    (z : List Char) (hd1 : d1 ≠ [])
    (hdig1 : ∀ a ∈ d1, isDigitC a = true) (hdig2 : ∀ a ∈ d2, isDigitC a = true) :
    (isIdentDot c = false →
      _convert_to_double (d1 ++ '.' :: (d2 ++ 'f' :: c :: z)) =
        d1 ++ '.' :: (d2 ++ c :: _convert_to_double z)) ∧
    (isIdentDot cp = true →
      regexSub (d1 ++ '.' :: (d2 ++ 'f' :: cp :: z)) =
        d1 ++ '.' :: (d2 ++ 'f' :: regexSub (cp :: z))) ∧
    regexSub (d1 ++ '.' :: (d2 ++ ['f'])) = d1 ++ '.' :: (d2 ++ ['f']) := by
  refine ⟨?_, ?_, regexSub_skip_end d1 d2 hdig1 hdig2⟩
  · intro hc
    show regexSub (replaceFD _) = _
    rw [replaceFD_skip_literal d1 d2 c z hdig1 hdig2 hc]
    have hassoc : (d1 ++ '.' :: (d2 ++ ['f', c])) ++ replaceFD z =
        d1 ++ '.' :: (d2 ++ 'f' :: c :: replaceFD z) := by simp
    rw [hassoc,
      regexSub_eq_of_match (matchLit_app (replaceFD z) hd1 hdig1 hdig2 hc)]
    show (d1 ++ '.' :: (d2 ++ [c])) ++ regexSub (replaceFD z) = _
    simp [_convert_to_double]
  · intro hcp
    have h1 := regexSub_skip_identDot d1 d2 cp z hdig1 hdig2 hcp
    rw [h1]
    simp

/-- C5 counterexample: the source text `".5f;"` contains the embedded
single-precision float literal `.5f` followed by the non-identifier
character `';'`, yet `_convert_to_double` leaves it unchanged (the regex
requires digits before the decimal point), contradicting "widens every
embedded single-precision float literal". -/
theorem convert_to_double_missed_literal :
    _convert_to_double ['.', '5', 'f', ';'] = ['.', '5', 'f', ';'] ∧
    (['.', '5', 'f', ';'] : List Char) ≠ ['.', '5', ';'] := by
  constructor
  · show regexSub (replaceFD ['.', '5', 'f', ';']) = _
    rw [replaceFD_cons_neg (show ¬ (['.', '5', 'f', ';'] : List Char).take 5 = floatChars by decide),
      replaceFD_cons_neg (show ¬ (['5', 'f', ';'] : List Char).take 5 = floatChars by decide),
      replaceFD_cons_neg (show ¬ (['f', ';'] : List Char).take 5 = floatChars by decide),
      replaceFD_cons_neg (show ¬ ([';'] : List Char).take 5 = floatChars by decide),
      replaceFD_nil]
    rw [regexSub_cons_none (show matchLit ['.', '5', 'f', ';'] = none by decide),
      regexSub_cons_none (show matchLit ['5', 'f', ';'] = none by decide),
      regexSub_cons_none (show matchLit ['f', ';'] = none by decide),
      regexSub_cons_none (show matchLit [';'] = none by decide),
      regexSub_nil]
  · decide

/-- Witness for C5 (amended) at the literal `1.0f` with delimiter `';'`,
identifier continuation `'x'`, and empty tail. -/
theorem convert_to_double_literal_rules_witness :
    (['1'] : List Char) ≠ [] ∧
    (∀ a ∈ (['1'] : List Char), isDigitC a = true) ∧
    (∀ a ∈ (['0'] : List Char), isDigitC a = true) ∧
    ((isIdentDot ';' = false →
      _convert_to_double (['1'] ++ '.' :: (['0'] ++ 'f' :: ';' :: [])) =
        ['1'] ++ '.' :: (['0'] ++ ';' :: _convert_to_double [])) ∧
     (isIdentDot 'x' = true →
      regexSub (['1'] ++ '.' :: (['0'] ++ 'f' :: 'x' :: [])) =
        ['1'] ++ '.' :: (['0'] ++ 'f' :: regexSub ('x' :: []))) ∧
     regexSub (['1'] ++ '.' :: (['0'] ++ ['f'])) = ['1'] ++ '.' :: (['0'] ++ ['f'])) :=
  ⟨by decide, by decide, by decide,
    convert_to_double_literal_rules ['1'] ['0'] ';' 'x' [] (by decide) (by decide)
      (by decide)⟩

end Sailfish
